import Mathlib

/-!
Verification development for the `pre-push` Git hook runner.

The Go sources are shallowly embedded: strings manipulated character by
character become `List Char`, Go maps become association lists with
replace-on-insert semantics, fallible functions return `Except` or pair a
value with an optional error exactly as the Go two-value returns do, and
the unbounded `for` loops of the source become fuel-indexed recursions
(`none` marks fuel exhaustion, which never occurs on the inputs used).
External effects (the action runner, `git` queries, the file hash) are
parameters of the model.
-/

namespace PrePush

/-- Decidable equality for `Except`, needed to evaluate the models on
concrete inputs with `decide`. -/
instance {ε α : Type} [DecidableEq ε] [DecidableEq α] : DecidableEq (Except ε α) :=
  fun x y =>
    match x, y with
    | Except.ok a, Except.ok b =>
      if h : a = b then isTrue (by rw [h])
      else isFalse (by intro hc; injection hc; contradiction)
    | Except.error a, Except.error b =>
      if h : a = b then isTrue (by rw [h])
      else isFalse (by intro hc; injection hc; contradiction)
    | Except.ok _, Except.error _ => isFalse (by intro hc; cases hc)
    | Except.error _, Except.ok _ => isFalse (by intro hc; cases hc)

/-- Decides whether `pat` is a prefix of `s`, mirroring `strings.HasPrefix`. -/
def hasPrefixL : List Char → List Char → Bool
  | _, [] => true
  | [], _ :: _ => false
  | c :: cs, p :: ps => c == p && hasPrefixL cs ps

/-- First index at which `pat` occurs in `s`, mirroring `strings.Index`
(`none` plays the role of Go's `-1`). -/
def indexOfSub (pat : List Char) : List Char → Option Nat
  | [] => if hasPrefixL [] pat then some 0 else none
  | c :: rest =>
    if hasPrefixL (c :: rest) pat then some 0
    else (indexOfSub pat rest).map (· + 1)

/-- Go-argument-order wrapper for `strings.Index(s, sub)`. -/
def stringsIndex (s sub : List Char) : Option Nat := indexOfSub sub s

/-- ASCII whitespace predicate used to model `unicode.IsSpace` on the
ASCII inputs the tool manipulates. -/
def isSpaceChar (c : Char) : Bool :=
  c == ' ' || c == '\t' || c == '\n' || c == '\r' || c == '\x0b' || c == '\x0c'

/-- Mirrors `strings.TrimSpace` (restricted to ASCII whitespace). -/
def trimSpace (s : List Char) : List Char :=
  ((s.dropWhile isSpaceChar).reverse.dropWhile isSpaceChar).reverse

/-- Mirrors `strings.TrimPrefix`. -/
def trimPrefixL (s pre : List Char) : List Char :=
  if hasPrefixL s pre then s.drop pre.length else s

/-- Lookup in the variable map (`map[string]string` access). -/
def lookupVar : List (List Char × List Char) → List Char → Option (List Char)
  | [], _ => none
  | (k, v) :: rest, name => if k == name then some v else lookupVar rest name

/-- The literal `${{` that opens a variable reference
(`resolveString` in internal/version/integration.go, config segment). -/
def varOpen : List Char := ['$', '\x7b', '\x7b']

/-- The literal `}}` that closes a variable reference. -/
def varClose : List Char := ['\x7d', '\x7d']

/-- Errors returned by `resolveString`: an unclosed `${{` reference
(carrying `result[start:]`) or an undefined variable (carrying the name). -/
inductive InterpError where
  | unclosed (rest : List Char)
  | undefined (name : List Char)
deriving DecidableEq, Repr

/-- Fuel-indexed transcription of the `for` loop of `resolveString`
(internal/version/integration.go, config segment, lines 551-580).  The Go
function returns a `(string, error)` pair: success is `(result, nil)` and
both failure paths return `("", err)`; the pair is modelled literally and
`none` marks fuel exhaustion.  Each iteration finds the first `${{` in the
whole current `result`, so substituted text is scanned again. -/
def resolveStringFuel : Nat → List (List Char × List Char) → List Char →
    Option (List Char × Option InterpError)
  | 0, _, _ => none
  | fuel + 1, vmap, result =>
    match stringsIndex result varOpen with
    | none => some (result, none)
    | some start =>
      match stringsIndex (result.drop start) varClose with
      | none => some ([], some (InterpError.unclosed (result.drop start)))
      | some e0 =>
        let e := start + e0 + 2
        let variableName := trimSpace ((result.take (e - 2)).drop (start + 3))
        match lookupVar vmap variableName with
        | none => some ([], some (InterpError.undefined variableName))
        | some value =>
          resolveStringFuel fuel vmap (result.take start ++ value ++ result.drop e)

/-- Concrete input `${{a}}` used to exhibit recursive re-scanning. -/
def nestedInput : List Char := ['$', '\x7b', '\x7b', 'a', '\x7d', '\x7d']

/-- Concrete context value `${{b}}`: a value that itself contains a
variable reference. -/
def nestedValue : List Char := ['$', '\x7b', '\x7b', 'b', '\x7d', '\x7d']

/-- Concrete variable context mapping `a` to `${{b}}` and `b` to `X`. -/
def nestedVars : List (List Char × List Char) :=
  [(['a'], nestedValue), (['b'], ['X'])]

/-- Accumulator-based transcription of `strings.Fields`: splits on runs of
whitespace. -/
def fieldsAux : List Char → List Char → List (List Char)
  | [], acc => if acc.isEmpty then [] else [acc.reverse]
  | c :: rest, acc =>
    if isSpaceChar c then
      if acc.isEmpty then fieldsAux rest [] else acc.reverse :: fieldsAux rest []
    else fieldsAux rest (c :: acc)

/-- Mirrors `strings.Fields(line)`. -/
def fieldsL (s : List Char) : List (List Char) := fieldsAux s []

/-- The forty-`0` SHA that marks a delete push
(`parseGitRef` in cmd/pre-push/main.go). -/
def zeroSHA : List Char := List.replicate 40 '0'

/-- The `refs/tags/` prefix recognised by `parseGitRef`. -/
def refsTags : List Char := "refs/tags/".toList

/-- The `refs/heads/` prefix recognised by `parseGitRef`. -/
def refsHeads : List Char := "refs/heads/".toList

/-- A parsed line of Git pre-push stdin (`GitRef` in cmd/pre-push/main.go). -/
structure GitRef where
  localRef : List Char
  localSHA : List Char
  remoteRef : List Char
  remoteSHA : List Char
  isDelete : Bool
  isTag : Bool
  isBranch : Bool
deriving DecidableEq, Repr

/-- Transcription of `parseGitRef`: a line must have exactly four
whitespace-separated fields; the delete flag compares `local_sha` to forty
zeros and the tag/branch flags test the `refs/...` prefixes. -/
def parseGitRef (line : List Char) : Except (List Char) GitRef :=
  match fieldsL line with
  | [localRef, localSHA, remoteRef, remoteSHA] =>
    Except.ok
      { localRef := localRef
        localSHA := localSHA
        remoteRef := remoteRef
        remoteSHA := remoteSHA
        isDelete := localSHA == zeroSHA
        isTag := hasPrefixL localRef refsTags
        isBranch := hasPrefixL localRef refsHeads }
  | _ => Except.error ("invalid Git ref format".toList)

/-- Transcription of `readGitRefs` over the already-read stdin lines:
empty lines are skipped, any malformed line aborts with an error. -/
def readGitRefs : List (List Char) → Except (List Char) (List GitRef)
  | [] => Except.ok []
  | l :: rest =>
    if l.isEmpty then readGitRefs rest
    else
      match parseGitRef l with
      | Except.error e => Except.error e
      | Except.ok r =>
        match readGitRefs rest with
        | Except.error e => Except.error e
        | Except.ok rs => Except.ok (r :: rs)

/-- Push-level information assembled by `parseGitPushInfo`. -/
structure GitPushInfo where
  remoteName : List Char
  remoteURL : List Char
  refs : List GitRef
  tags : List (List Char)
  branches : List (List Char)
  isDelete : Bool
deriving DecidableEq, Repr

/-- Transcription of `parseGitPushInfo`: needs `os.Args[1]` (the remote
name); collects tag names, branch names (a ref that is both is counted as
a tag only, matching the `if`/`else if`), and whether any ref is a
delete.  Both arms of the Go `if ref.IsDelete` extract names identically,
so the extraction is shared here. -/
def parseGitPushInfo (args : List (List Char)) (refs : List GitRef) :
    Except (List Char) GitPushInfo :=
  match args with
  | _prog :: remoteName :: restArgs =>
    Except.ok
      { remoteName := remoteName
        remoteURL := match restArgs with | u :: _ => u | [] => []
        refs := refs
        tags := refs.filterMap fun r =>
          if r.isTag then some (trimPrefixL r.localRef refsTags) else none
        branches := refs.filterMap fun r =>
          if r.isTag then none
          else if r.isBranch then some (trimPrefixL r.localRef refsHeads) else none
        isDelete := refs.any (·.isDelete) }
  | _ => Except.error ("insufficient arguments for Git hook".toList)

/-- Failure reasons of `Detector.ValidateVersion`
(internal/version/detector.go, lines 53-77). -/
inductive VersionError where
  | emptyVersion
  | missingVPrefix (v : List Char)
  | noDigit (v : List Char)
deriving DecidableEq, Repr

/-- Transcription of `Detector.ValidateVersion`: non-empty, starts with
`v`, and contains at least one decimal digit. -/
def ValidateVersion (version : List Char) : Except VersionError Unit :=
  if version.isEmpty then Except.error VersionError.emptyVersion
  else if !hasPrefixL version ['v'] then Except.error (VersionError.missingVPrefix version)
  else if version.any (fun r => decide ('0' ≤ r) && decide (r ≤ '9')) then Except.ok ()
  else Except.error (VersionError.noDigit version)

/-- Reports whether an `Except` carries a success, used to model Go's
`err == nil` checks. -/
def isOkE {ε α : Type} : Except ε α → Bool
  | Except.ok _ => true
  | Except.error _ => false

/-- Transcription of `shouldSkipPrePushStage`: when either `git` query
fails the stage is not skipped; otherwise it is skipped when any pushed
tag differs from the current tag or any pushed branch differs from the
current branch. -/
def shouldSkipPrePushStage (info : GitPushInfo)
    (currentBranch currentTag : Except Unit (List Char)) : Bool :=
  match currentBranch with
  | Except.error _ => false
  | Except.ok cb =>
    match currentTag with
    | Except.error _ => false
    | Except.ok ct =>
      info.tags.any (fun t => t != ct) || info.branches.any (fun b => b != cb)

/-- Observable milestones of one `runGitHook` invocation, used to state
what the classifier does and does not reach. -/
inductive HookEvent where
  | deleteMsg
  | validatedTag (t : List Char)
  | notCurrentMsg
  | loadedConfig
  | ranStage
deriving DecidableEq, Repr

/-- Outcome of one `runGitHook` invocation: the milestones reached in
order, and the error returned to `main` (`some` makes the process exit 1,
`none` exits 0). -/
structure HookRun where
  events : List HookEvent
  hookError : Option (List Char)
deriving DecidableEq, Repr

/-- Transcription of the decision flow of `runGitHook`
(cmd/pre-push/main.go, third revision, lines 1023-1102): read refs, stop
on empty input, parse push info, short-circuit deletes, validate each
pushed tag in order, skip when the push is not of the current ref, else
load the configuration and run the `pre-push` stage.  `currentBranch`,
`currentTag` stand for the two `git` queries and `stageOutcome` for the
error returned by configuration loading plus `executor.RunStage`. -/
def runGitHook (args stdinLines : List (List Char))
    (currentBranch currentTag : Except Unit (List Char))
    (stageOutcome : Option (List Char)) : HookRun :=
  match readGitRefs stdinLines with
  | Except.error e => { events := [], hookError := some e }
  | Except.ok refs =>
    if refs.isEmpty then { events := [], hookError := none }
    else
      match parseGitPushInfo args refs with
      | Except.error e => { events := [], hookError := some e }
      | Except.ok info =>
        if info.isDelete then { events := [HookEvent.deleteMsg], hookError := none }
        else
          match info.tags.dropWhile (fun t => isOkE (ValidateVersion t)) with
          | bad :: _ =>
            { events := ((info.tags.takeWhile (fun t => isOkE (ValidateVersion t))) ++
                [bad]).map HookEvent.validatedTag
              hookError := some (("invalid tag semantics for ".toList) ++ bad) }
          | [] =>
            let validated := info.tags.map HookEvent.validatedTag
            if shouldSkipPrePushStage info currentBranch currentTag then
              { events := validated ++ [HookEvent.notCurrentMsg], hookError := none }
            else
              { events := validated ++ [HookEvent.loadedConfig, HookEvent.ranStage]
                hookError := stageOutcome }

/-- The hook-side file system visible to `checkAndUpdateGitHook`: the
bytes of the running binary and the optional contents of
`.git/hooks/pre-push`. -/
structure HookFS where
  binary : List Char
  hook : Option (List Char)
deriving DecidableEq, Repr

/-- Transcription of `isBinaryDifferent` with the MD5 computation
abstracted into the `hash` parameter: a missing hook is different, else
the two content hashes are compared. -/
def isBinaryDifferent (hash : List Char → List Char) (fs : HookFS) : Bool :=
  match fs.hook with
  | none => true
  | some h => hash fs.binary != hash h

/-- Transcription of `updateGitHook`: the hook file becomes a byte copy
of the running binary (`io.Copy` after `O_TRUNC`). -/
def updateGitHook (fs : HookFS) : HookFS := { fs with hook := some fs.binary }

/-- Transcription of `checkAndUpdateGitHook` (cmd/pre-push/main.go, third
revision, lines 893-910): returns the new file system, the updated flag
returned to `runInstall`, and the message printed. -/
def checkAndUpdateGitHook (hash : List Char → List Char) (fs : HookFS) :
    HookFS × Bool × String :=
  if isBinaryDifferent hash fs then
    (updateGitHook fs, true, "Updated Git pre-push hook with current binary")
  else
    (fs, false, "Git pre-push hook is already up to date")

/-- Step/result statuses (`Status` in pkg/prepush/prepush.go). -/
inductive Status where
  | pending
  | running
  | ok
  | warn
  | error
  | skipped
deriving DecidableEq, Repr

/-- An action of the manifest (`Action` in pkg/prepush/prepush.go). -/
structure Action where
  name : String
  run : String
  uses : String
deriving DecidableEq, Repr

/-- A stage step (`Step` in pkg/prepush/prepush.go); the Go field `If`
is called `ifCond` here because `if` is reserved. -/
structure Step where
  action : String
  require : List String
  onError : String
  ifCond : String
  only : List String
deriving DecidableEq, Repr

/-- The observable part of a step result (`Result` in
pkg/prepush/prepush.go without the wrapped Go `error`). -/
structure Result where
  name : String
  status : Status
  message : String
deriving DecidableEq, Repr

/-- A node of the execution DAG (`DAGNode` in internal/exec/executor.go;
the derived `Dependents` list is never read by the executor and is
omitted). -/
structure DAGNode where
  step : Step
  action : Action
  dependencies : List String
deriving DecidableEq, Repr

/-- The manifest (`Config` in pkg/prepush/prepush.go); the stage map
becomes an association list from stage name to its steps. -/
structure Config where
  projectName : String
  actions : List Action
  stages : List (String × List Step)

/-- Transcription of `Config.GetAction`: first action with the name. -/
def GetAction (cfg : Config) (name : String) : Option Action :=
  cfg.actions.find? (fun a => a.name == name)

/-- Transcription of `Config.GetStage` (map lookup). -/
def GetStage (cfg : Config) (name : String) : Option (List Step) :=
  (cfg.stages.find? (fun p => p.1 == name)).map (·.2)

/-- Go map assignment `dag[step.Action] = node`: replaces an existing
binding in place, otherwise appends. -/
def insertNode : List (String × DAGNode) → String → DAGNode → List (String × DAGNode)
  | [], k, v => [(k, v)]
  | (k0, v0) :: rest, k, v =>
    if k0 == k then (k, v) :: rest else (k0, v0) :: insertNode rest k v

/-- Go map read `dag[name]` (as an option). -/
def lookupNode : List (String × DAGNode) → String → Option DAGNode
  | [], _ => none
  | (k, v) :: rest, name => if k == name then some v else lookupNode rest name

/-- The node-creation loop of `buildDAG`: resolve each step's action and
key the node by the step's action name. -/
def buildDAGNodes (cfg : Config) : List Step → List (String × DAGNode) →
    Except String (List (String × DAGNode))
  | [], dag => Except.ok dag
  | step :: rest, dag =>
    match GetAction cfg step.action with
    | none => Except.error ("action not found: " ++ step.action)
    | some action =>
      buildDAGNodes cfg rest (insertNode dag step.action
        { step := step, action := action, dependencies := step.require })

/-- The dependency-relationship loop of `buildDAG`: the first `require`
entry that is not a key of the DAG, if any. -/
def findMissingDep (dag : List (String × DAGNode)) :
    List (String × DAGNode) → Option String
  | [] => none
  | (_, n) :: rest =>
    match n.dependencies.find? (fun d => (lookupNode dag d).isNone) with
    | some d => some d
    | none => findMissingDep dag rest

/-- Dependencies of a node by name (the missing-key case cannot be
reached after `findMissingDep` passes). -/
def depsOf (dag : List (String × DAGNode)) (name : String) : List String :=
  match lookupNode dag name with
  | some n => n.dependencies
  | none => []

/-- Depth-fuelled transcription of the recursive `dfs` closure of
`detectCycles`: an element already on the recursion stack is a cycle, a
visited element is skipped, otherwise the node is marked and its
dependencies are traversed in order with the node pushed on the stack
(an error short-circuits the fold as the Go `return` does).  Fuel
`dag.length + 1` is enough because the stack grows by a fresh name at
each level. -/
def dfsCycle (dag : List (String × DAGNode)) : Nat → List String → List String →
    String → Except String (List String)
  | 0, _, _, _ => Except.error "cycle detection depth exceeded"
  | fuel + 1, visited, recStack, nodeName =>
    if recStack.contains nodeName then
      Except.error ("cycle detected involving node: " ++ nodeName)
    else if visited.contains nodeName then Except.ok visited
    else
      (depsOf dag nodeName).foldl
        (fun acc d =>
          match acc with
          | Except.error e => Except.error e
          | Except.ok vis => dfsCycle dag fuel vis (nodeName :: recStack) d)
        (Except.ok (nodeName :: visited))

/-- The outer node loop of `detectCycles`. -/
def detectCyclesGo (dag : List (String × DAGNode)) :
    List (String × DAGNode) → List String → Except String Unit
  | [], _ => Except.ok ()
  | (n, _) :: rest, visited =>
    if visited.contains n then detectCyclesGo dag rest visited
    else
      match dfsCycle dag (dag.length + 1) visited [] n with
      | Except.error e => Except.error e
      | Except.ok visited2 => detectCyclesGo dag rest visited2

/-- Transcription of `detectCycles`. -/
def detectCycles (dag : List (String × DAGNode)) : Except String Unit :=
  detectCyclesGo dag dag []

/-- Transcription of `buildDAG` (internal/exec/executor.go, lines
116-153): create the nodes keyed by action name, check every `require`
resolves, then reject cycles. -/
def buildDAG (cfg : Config) (steps : List Step) :
    Except String (List (String × DAGNode)) :=
  match buildDAGNodes cfg steps [] with
  | Except.error e => Except.error e
  | Except.ok dag =>
    match findMissingDep dag dag with
    | some d => Except.error ("dependency not found: " ++ d)
    | none =>
      match detectCycles dag with
      | Except.error e => Except.error ("circular dependency detected: " ++ e)
      | Except.ok _ => Except.ok dag

/-- Mirrors `strings.ToLower` on ASCII. -/
def toLowerL (s : List Char) : List Char := s.map Char.toLower

/-- Mirrors `strings.Contains`. -/
def stringsContains (s sub : List Char) : Bool := (stringsIndex s sub).isSome

/-- Transcription of `getVersionType` (internal/exec/executor.go, lines
724-742); `detected` stands for the `DetectCurrentVersion` git query. -/
def getVersionType (detected : Except Unit String) : Except Unit String :=
  match detected with
  | Except.error e => Except.error e
  | Except.ok version =>
    let versionLower := toLowerL version.toList
    if stringsContains versionLower "alpha".toList ||
       stringsContains versionLower "beta".toList ||
       stringsContains versionLower "rc".toList then Except.ok "prerelease"
    else Except.ok "release"

/-- The ASCII single-quote character, spelled by code point. -/
def quoteChar : Char := Char.ofNat 39

/-- Builds the two condition literals recognised by `evaluateCondition`,
such as `version.type == 'release'`. -/
def condVersionType (kind : String) : String :=
  String.mk ("version.type == ".toList ++ [quoteChar] ++ kind.toList ++ [quoteChar])

/-- Transcription of `evaluateCondition`: only the two hard-coded
comparisons are interpreted, every other string defaults to true. -/
def evaluateCondition (detected : Except Unit String) (condition : String) : Bool :=
  if condition == condVersionType "release" then
    match getVersionType detected with
    | Except.ok versionType => versionType == "release"
    | Except.error _ => false
  else if condition == condVersionType "prerelease" then
    match getVersionType detected with
    | Except.ok versionType => versionType == "prerelease"
    | Except.error _ => false
  else true

/-- Transcription of `matchesOnlyConditions`. -/
def matchesOnlyConditions (detected : Except Unit String)
    (onlyConditions : List String) : Bool :=
  match getVersionType detected with
  | Except.error _ => false
  | Except.ok versionType => onlyConditions.any (fun c => c == versionType)

/-- Transcription of `shouldExecuteStep` (internal/exec/executor.go,
lines 669-685). -/
def shouldExecuteStep (detected : Except Unit String) (node : DAGNode) : Bool :=
  if node.step.ifCond != "" && !evaluateCondition detected node.step.ifCond then false
  else if !node.step.only.isEmpty && !matchesOnlyConditions detected node.step.only then
    false
  else true

/-- Transcription of `hasFailedDependency` (lines 569-576). -/
def hasFailedDependency (node : DAGNode) (failed : List String) : Bool :=
  node.dependencies.any (fun d => failed.contains d)

/-- Transcription of `allDependenciesCompleted` (lines 559-566). -/
def allDependenciesCompleted (node : DAGNode) (completed : List String) : Bool :=
  node.dependencies.all (fun d => completed.contains d)

/-- Transcription of `getReadyStepsLocked` (lines 478-493): not yet
completed, not executing, and all dependencies completed. -/
def getReadyStepsLocked (dag : List (String × DAGNode))
    (completed executing : List String) : List (String × DAGNode) :=
  dag.filter fun p =>
    !completed.contains p.1 && !executing.contains p.1 &&
      allDependenciesCompleted p.2 completed

/-- The fate of one ready node inside the wave loop of
`executeDAGWithStreaming` (lines 307-344): a failed dependency yields
SKIPPED, an unmet `if`/`only` gate yields an OK result whose message
notes the skip, otherwise the action runner (the `runner` parameter,
standing for `executeAction`) decides, with the name set afterwards as in
`result.Name = nodeName`. -/
def stepOutcome (detected : Except Unit String) (runner : Action → Result)
    (failed : List String) (p : String × DAGNode) : Result :=
  if hasFailedDependency p.2 failed then
    { name := p.1, status := Status.skipped, message := "skipped (dependency failed)" }
  else if !shouldExecuteStep detected p.2 then
    { name := p.1, status := Status.ok, message := "skipped (condition not met)" }
  else
    { runner p.2.action with name := p.1 }

/-- The scheduler state shared under the mutex of
`executeDAGWithStreaming`: completed names, failed names, and the results
in consumption order. -/
structure SchedState where
  completed : List String
  failed : List String
  results : List Result
deriving Repr

/-- One wave of `executeDAGWithStreaming`: every ready node's result is
produced (skip decisions read the wave-start `failed` map, which is
settled because a node and its dependency are never ready together) and
then consumed by the result goroutine, which appends the result, marks
the name completed, and marks it failed exactly when the status is
ERROR. -/
def applyWave (detected : Except Unit String) (runner : Action → Result)
    (st : SchedState) (ready : List (String × DAGNode)) : SchedState :=
  let rs := ready.map (stepOutcome detected runner st.failed)
  { completed := st.completed ++ rs.map (·.name)
    failed := st.failed ++ (rs.filter (fun r => r.status == Status.error)).map (·.name)
    results := st.results ++ rs }

/-- The outer `for` loop of `executeDAGWithStreaming` (lines 296-347):
recompute the ready set and run a wave until nothing is ready.  The loop
runs at most `dag.length` non-empty waves, so the fuel used below never
runs out. -/
def runWaves (detected : Except Unit String) (runner : Action → Result)
    (dag : List (String × DAGNode)) : Nat → SchedState → SchedState
  | 0, st => st
  | fuel + 1, st =>
    let ready := getReadyStepsLocked dag st.completed []
    if ready.isEmpty then st
    else runWaves detected runner dag fuel (applyWave detected runner st ready)

/-- Transcription of `executeDAGWithStreaming` restricted to its
result-producing behaviour (display is modelled separately below). -/
def executeDAGWithStreaming (detected : Except Unit String)
    (runner : Action → Result) (dag : List (String × DAGNode)) : List Result :=
  (runWaves detected runner dag (dag.length + 1)
    { completed := [], failed := [], results := [] }).results

/-- Transcription of `hasErrors` (lines 745-752). -/
def hasErrors (results : List Result) : Bool :=
  results.any (fun r => r.status == Status.error)

/-- Transcription of `RunStage` (internal/exec/executor.go, lines 53-83)
at the level of its observable outcome: a missing stage or a DAG build
problem is returned as an error; otherwise the streaming executor runs,
the boolean `success` passed to `PrintStageResult` is computed as
`err == nil && !hasErrors(results)`, and the function returns the nil
error of `executeDAGWithStreaming` — so `Except.ok` here means
`RunStage` returned nil to its caller. -/
def RunStage (cfg : Config) (detected : Except Unit String)
    (runner : Action → Result) (stageName : String) :
    Except String (List Result × Bool) :=
  match GetStage cfg stageName with
  | none => Except.error ("stage not found: " ++ stageName)
  | some steps =>
    match buildDAG cfg steps with
    | Except.error e => Except.error ("failed to build execution DAG: " ++ e)
    | Except.ok dag =>
      let results := executeDAGWithStreaming detected runner dag
      Except.ok (results, !hasErrors results)

/-- Exit code of the hook process around `RunStage`: `main` calls
`os.Exit(1)` exactly when `runGitHook` (hence `RunStage`) returned a
non-nil error. -/
def hookExitCode (outcome : Except String (List Result × Bool)) : Nat :=
  match outcome with
  | Except.error _ => 1
  | Except.ok _ => 0

/-- Status of the unique result carrying a name, used to state scheduler
properties (`resultMap` lookup). -/
def statusOf (results : List Result) (name : String) : Option Status :=
  (results.find? (fun r => r.name == name)).map (·.status)

/-- The result the scheduler is expected to produce for a node, phrased
against the final results list: dependents of an ERROR result are
SKIPPED, unmet gates give the OK condition-skip result, otherwise the
runner's result is kept. -/
def expectedResult (detected : Except Unit String) (runner : Action → Result)
    (results : List Result) (name : String) (node : DAGNode) : Result :=
  if node.dependencies.any (fun d => statusOf results d == some Status.error) then
    { name := name, status := Status.skipped, message := "skipped (dependency failed)" }
  else if !shouldExecuteStep detected node then
    { name := name, status := Status.ok, message := "skipped (condition not met)" }
  else
    { runner node.action with name := name }

/-- Transcription of `canDisplayStepImmediately` (lines 435-457) with
steps reduced to their action names: every earlier-declared step must be
completed. -/
def canDisplayStepImmediately (steps completed : List String)
    (stepName : String) : Bool :=
  match steps.findIdx? (fun s => s == stepName) with
  | none => false
  | some stepIndex => (steps.take stepIndex).all (fun s => completed.contains s)

/-- Transcription of `displayStepImmediately` (lines 379-393): the
arriving step is printed (appended to the emission list) exactly when the
declaration-order guard holds; no other buffered step is flushed here. -/
def displayStepImmediately (steps completed emitted : List String)
    (stepName : String) : List String :=
  if canDisplayStepImmediately steps completed stepName then emitted ++ [stepName]
  else emitted

/-- The result-consuming goroutine of `executeDAGWithStreaming` as seen
by the display: results arrive in the order given by `arrivals`, each
arrival is marked completed and then offered to
`displayStepImmediately`. -/
def processArrivals (steps : List String) : List String → List String → List String →
    List String × List String
  | [], completed, emitted => (completed, emitted)
  | a :: rest, completed, emitted =>
    processArrivals steps rest (a :: completed)
      (displayStepImmediately steps (a :: completed) emitted a)

/-- Transcription of `displayRemainingSteps` (lines 496-505): after the
run, walk the declaration order and print every step that has a result
but was never displayed. -/
def displayRemainingSteps (steps completed emitted : List String) : List String :=
  steps.foldl (fun em s =>
    if !em.contains s && completed.contains s then em ++ [s] else em) emitted

/-- The complete emission order of one stage run, as a function of the
order in which results arrive on the channel. -/
def streamEmitOrder (steps arrivals : List String) : List String :=
  let p := processArrivals steps arrivals [] []
  displayRemainingSteps steps p.1 p.2

/-- A plain step with only an action reference and requirements. -/
def stepPlain (a : String) (req : List String) : Step :=
  { action := a, require := req, onError := "", ifCond := "", only := [] }

/-- Action `a` running the shell command `false`. -/
def actFalse : Action := { name := "a", run := "false", uses := "" }

/-- Action `a` running the shell command `true`. -/
def actTrue : Action := { name := "a", run := "true", uses := "" }

/-- Action `b` running the shell command `true`. -/
def actBTrue : Action := { name := "b", run := "true", uses := "" }

/-- Action `x` running the shell command `true`. -/
def actX : Action := { name := "x", run := "true", uses := "" }

/-- Stage with a single failing step, for the exit-code analysis. -/
def cfgSingleError : Config :=
  { projectName := "p", actions := [actFalse]
    stages := [("pre-push", [stepPlain "a" []])] }

/-- Runner outcome in which action `a` fails as a shell command does
(`executeCustomAction` error path) and everything else succeeds. -/
def runnerAFails : Action → Result := fun a =>
  if a.name == "a" then
    { name := a.name, status := Status.error
      message := "Command failed. To debug run: false" }
  else
    { name := a.name, status := Status.ok, message := "command executed successfully" }

/-- Runner outcome in which every action succeeds. -/
def runnerAllOk : Action → Result := fun a =>
  { name := a.name, status := Status.ok, message := "command executed successfully" }

/-- Step on action `a` gated by `only: [release]`. -/
def stepOnlyRelease : Step :=
  { action := "a", require := [], onError := "", ifCond := "", only := ["release"] }

/-- Stage whose single step carries the `only: [release]` gate. -/
def cfgOnlyGate : Config :=
  { projectName := "p", actions := [actTrue]
    stages := [("pre-push", [stepOnlyRelease])] }

/-- Detected current version `v1.0.0-rc1`, classified as prerelease. -/
def detectedRC : Except Unit String := Except.ok "v1.0.0-rc1"

/-- Detected current version `v1.0.0`, classified as release. -/
def detectedRelease : Except Unit String := Except.ok "v1.0.0"

/-- Step on action `a` declaring `on_error: warn`. -/
def stepWarnA : Step :=
  { action := "a", require := [], onError := "warn", ifCond := "", only := [] }

/-- Stage in which `b` requires the `on_error: warn` step `a`. -/
def cfgWarnChain : Config :=
  { projectName := "p", actions := [actFalse, actBTrue]
    stages := [("pre-push", [stepWarnA, stepPlain "b" ["a"]])] }

/-- Second step referencing the already-used action name `x`,
distinguishable from the first by its `if` string. -/
def stepDupSecond : Step :=
  { action := "x", require := [], onError := "", ifCond := "second", only := [] }

/-- Stage declaring two steps that reference the same action `x`. -/
def cfgDup : Config :=
  { projectName := "p", actions := [actX]
    stages := [("pre-push", [stepPlain "x" [], stepDupSecond])] }

/-- Stdin line deleting `refs/heads/main` (forty-zero local SHA). -/
def deleteLine : List Char :=
  "refs/heads/main ".toList ++ zeroSHA ++ " refs/heads/main abc123".toList

/-- Stdin line pushing the tag `1.0.0`, which lacks the `v` prefix. -/
def badTagLine : List Char :=
  "refs/tags/1.0.0 abc123 refs/tags/1.0.0 def456".toList

/-- Hook argv `[pre-push, origin, url]`. -/
def hookArgs : List (List Char) :=
  ["pre-push".toList, "origin".toList, "git@github.com:u/r.git".toList]

/-- An unclosed interpolation input `${{ a`. -/
def unclosedInput : List Char := ['$', '\x7b', '\x7b', ' ', 'a']

/-- An interpolation input referencing the undefined variable `q`. -/
def undefinedInput : List Char := ['$', '\x7b', '\x7b', 'q', '\x7d', '\x7d']

/-- The parsed form of `deleteLine`. -/
def deleteRef : GitRef :=
  { localRef := "refs/heads/main".toList, localSHA := zeroSHA
    remoteRef := "refs/heads/main".toList, remoteSHA := "abc123".toList
    isDelete := true, isTag := false, isBranch := true }

/-- The push info parsed from `hookArgs` and `[deleteLine]`. -/
def deleteInfo : GitPushInfo :=
  { remoteName := "origin".toList, remoteURL := "git@github.com:u/r.git".toList
    refs := [deleteRef], tags := [], branches := ["main".toList], isDelete := true }

/-- The parsed form of `badTagLine`. -/
def badTagRef : GitRef :=
  { localRef := "refs/tags/1.0.0".toList, localSHA := "abc123".toList
    remoteRef := "refs/tags/1.0.0".toList, remoteSHA := "def456".toList
    isDelete := false, isTag := true, isBranch := false }

/-- The push info parsed from `hookArgs` and `[badTagLine]`. -/
def badTagInfo : GitPushInfo :=
  { remoteName := "origin".toList, remoteURL := "git@github.com:u/r.git".toList
    refs := [badTagRef], tags := ["1.0.0".toList], branches := [], isDelete := false }

/-- The last step of a stage referencing a given action name, used to
state which node survives the keyed-by-name map insertion. -/
def lastStepFor : List Step → String → Option Step
  | [], _ => none
  | stp :: rest, n =>
    match lastStepFor rest n with
    | some s => some s
    | none => if stp.action == n then some stp else none

/-- A witness that the DAG is acyclic: a list in which every node name
occurs and every dependency occurs strictly earlier than its dependent. -/
def TopoOrdered (dag : List (String × DAGNode)) (ord : List String) : Prop :=
  (∀ p ∈ dag, p.1 ∈ ord) ∧
  ∀ p ∈ dag, ∀ d ∈ p.2.dependencies, ord.indexOf d < ord.indexOf p.1

/-- Decidability of `TopoOrdered`, so concrete witnesses can be checked
by evaluation. -/
instance (dag : List (String × DAGNode)) (ord : List String) :
    Decidable (TopoOrdered dag ord) :=
  decidable_of_iff ((∀ p ∈ dag, p.1 ∈ ord) ∧
    ∀ p ∈ dag, ∀ d ∈ p.2.dependencies, ord.indexOf d < ord.indexOf p.1) Iff.rfl

/-- The invariant maintained by the streaming scheduler: completion,
failure marking, and result contents all agree — a name is completed iff
it has a result, it is failed iff its result is ERROR, result names are
unique, and every result is the one `expectedResult` predicts from its
node and the statuses of its dependencies. -/
def SchedInv (detected : Except Unit String) (runner : Action → Result)
    (dag : List (String × DAGNode)) (st : SchedState) : Prop :=
  (∀ n, n ∈ st.completed ↔ (statusOf st.results n).isSome) ∧
  (st.results.map (·.name)).Nodup ∧
  (∀ n, n ∈ st.failed ↔ statusOf st.results n = some Status.error) ∧
  (∀ r ∈ st.results, ∃ node, lookupNode dag r.name = some node ∧
    (∀ d ∈ node.dependencies, (statusOf st.results d).isSome) ∧
    r = expectedResult detected runner st.results r.name node)

/-- The DAG built for `cfgOnlyGate`. -/
def dagOnlyGate : List (String × DAGNode) :=
  [("a", { step := stepOnlyRelease, action := actTrue, dependencies := [] })]

/-- The DAG built for `cfgWarnChain`. -/
def dagWarnChain : List (String × DAGNode) :=
  [("a", { step := stepWarnA, action := actFalse, dependencies := [] }),
   ("b", { step := stepPlain "b" ["a"], action := actBTrue, dependencies := ["a"] })]

/-- The DAG built for `cfgDup`: one node, keyed by the shared action
name, holding the later-declared step. -/
def dagDup : List (String × DAGNode) :=
  [("x", { step := stepDupSecond, action := actX, dependencies := [] })]

/-- The ERROR result the model runner produces for action `a`. -/
def errResultA : Result :=
  { name := "a", status := Status.error
    message := "Command failed. To debug run: false" }

/-- The dependency-skip result of step `b`. -/
def depSkipResultB : Result :=
  { name := "b", status := Status.skipped, message := "skipped (dependency failed)" }

/-- The condition-skip result of step `a`: status OK, skip message. -/
def condSkipResultA : Result :=
  { name := "a", status := Status.ok, message := "skipped (condition not met)" }

/-- The OK condition-skip result produced for a gated step. -/
def condSkipResult (name : String) : Result :=
  { name := name, status := Status.ok, message := "skipped (condition not met)" }

/-- The SKIPPED result produced for a step whose dependency failed. -/
def depSkipResult (name : String) : Result :=
  { name := name, status := Status.skipped, message := "skipped (dependency failed)" }

/-- Claim C6: `resolveString` fails with an error on an undefined
variable reference and on an unclosed `${{`, and in every error case the
returned string is empty rather than a partially substituted result
(the Go function returns `("", err)` on both paths). -/
theorem interpolation_error_cases (fuel : Nat)
    (vmap : List (List Char × List Char)) (s : List Char)
    (out : List Char × Option InterpError)
    (h : resolveStringFuel fuel vmap s = some out) :
    (out.2.isSome → out.1 = []) ∧
    (∀ start, stringsIndex s varOpen = some start →
      stringsIndex (s.drop start) varClose = none →
      out = ([], some (InterpError.unclosed (s.drop start)))) ∧
    (∀ start e0, stringsIndex s varOpen = some start →
      stringsIndex (s.drop start) varClose = some e0 →
      lookupVar vmap (trimSpace ((s.take (start + e0)).drop (start + 3))) = none →
      out = ([], some (InterpError.undefined
        (trimSpace ((s.take (start + e0)).drop (start + 3)))))) := by
  induction fuel generalizing s out with
  | zero => simp [resolveStringFuel] at h
  | succ fuel ih =>
    rw [resolveStringFuel] at h
    split at h
    next hop =>
      injection h with h
      subst h
      refine ⟨?_, ?_, ?_⟩
      · intro hsome
        simp at hsome
      · intro start hstart
        rw [hop] at hstart
        cases hstart
      · intro start e0 hstart
        rw [hop] at hstart
        cases hstart
    next start hop =>
      dsimp only at h
      split at h
      next hcl =>
        injection h with h
        subst h
        refine ⟨fun _ => rfl, ?_, ?_⟩
        · intro start2 hstart2 _
          rw [hop] at hstart2
          cases hstart2
          rfl
        · intro start2 e0 hstart2 hcl2
          rw [hop] at hstart2
          cases hstart2
          rw [hcl] at hcl2
          cases hcl2
      next e0 hcl =>
        rw [show start + e0 + 2 - 2 = start + e0 by omega] at h
        split at h
        next hlk =>
          injection h with h
          subst h
          refine ⟨fun _ => rfl, ?_, ?_⟩
          · intro start2 hstart2 hcl2
            rw [hop] at hstart2
            cases hstart2
            rw [hcl] at hcl2
            cases hcl2
          · intro start2 e02 hstart2 hcl2 hlk2
            rw [hop] at hstart2
            cases hstart2
            rw [hcl] at hcl2
            cases hcl2
            rfl
        next value hlk =>
          have ihres := ih (s.take start ++ value ++ s.drop (start + e0 + 2)) out h
          refine ⟨ihres.1, ?_, ?_⟩
          · intro start2 hstart2 hcl2
            rw [hop] at hstart2
            cases hstart2
            rw [hcl] at hcl2
            cases hcl2
          · intro start2 e02 hstart2 hcl2 hlk2
            rw [hop] at hstart2
            cases hstart2
            rw [hcl] at hcl2
            cases hcl2
            rw [hlk] at hlk2
            cases hlk2

/-- Witness for C6: the unclosed input `${{ a` and the undefined
reference `${{q}}` both produce an error with an empty result string. -/
theorem interpolation_error_cases_witness :
    (resolveStringFuel 5 [] unclosedInput =
      some ([], some (InterpError.unclosed unclosedInput))) ∧
    (resolveStringFuel 5 [] undefinedInput =
      some ([], some (InterpError.undefined ['q']))) ∧
    (([] : List Char) = []) :=
  ⟨by decide, by decide,
    (interpolation_error_cases 5 [] unclosedInput
      ([], some (InterpError.unclosed unclosedInput)) (by decide)).1 (by decide)⟩

/-- Counterexample to C5: with `a ↦ ${{b}}` and `b ↦ X`, resolving
`${{a}}` yields `X`, not the verbatim text `${{b}}` — the substituted
value is re-scanned and expanded. -/
theorem interpolation_rescans_cex :
    resolveStringFuel 3 nestedVars nestedInput = some (['X'], none) ∧
    (['X'] : List Char) ≠ nestedValue := by
  constructor
  · decide
  · decide

/-- Claim C5 as amended: after each substitution the scan restarts at
the beginning of the updated string, so replacement text is re-scanned
and a context value containing `${{ ... }}` is expanded recursively;
here `${{a}}` with `a ↦ ${{b}}` resolves all the way to the value of
`b`, for an arbitrary reference-free value `w` of `b`. -/
theorem interpolation_recursive_expansion (w : List Char)
    (h : stringsIndex w varOpen = none) :
    resolveStringFuel 3 [(['a'], nestedValue), (['b'], w)] nestedInput =
      some (w, none) := by
  have h1 : resolveStringFuel 3 [(['a'], nestedValue), (['b'], w)] nestedInput =
      resolveStringFuel 1 [(['a'], nestedValue), (['b'], w)] (w ++ []) := rfl
  rw [h1, List.append_nil, resolveStringFuel, h]

/-- Witness for C5's amended claim at `w = X`. -/
theorem interpolation_recursive_expansion_witness :
    resolveStringFuel 3 [(['a'], nestedValue), (['b'], ['X'])] nestedInput =
      some (['X'], none) :=
  interpolation_recursive_expansion ['X'] (by decide)

/-- Claim C9: installing twice with the same binary is idempotent — the
first `checkAndUpdateGitHook` leaves `.git/hooks/pre-push` a byte copy of
the binary (given that the hash separates the initially installed hook
from the binary, as a content hash does), and the second run changes
nothing and reports that no update occurred. -/
theorem checkAndUpdate_of_different (hash : List Char → List Char) (fs : HookFS)
    (h : isBinaryDifferent hash fs = true) :
    checkAndUpdateGitHook hash fs =
      (updateGitHook fs, true, "Updated Git pre-push hook with current binary") := by
  simp [checkAndUpdateGitHook, h]

theorem checkAndUpdate_of_same (hash : List Char → List Char) (fs : HookFS)
    (h : isBinaryDifferent hash fs = false) :
    checkAndUpdateGitHook hash fs =
      (fs, false, "Git pre-push hook is already up to date") := by
  simp [checkAndUpdateGitHook, h]

theorem isBinaryDifferent_update (hash : List Char → List Char) (fs : HookFS) :
    isBinaryDifferent hash (updateGitHook fs) = false := by
  simp [isBinaryDifferent, updateGitHook]

theorem install_twice_idempotent (hash : List Char → List Char) (fs : HookFS)
    (hsep : ∀ b, fs.hook = some b → hash b = hash fs.binary → b = fs.binary) :
    ((checkAndUpdateGitHook hash fs).1.hook = some fs.binary) ∧
    (checkAndUpdateGitHook hash (checkAndUpdateGitHook hash fs).1 =
      ((checkAndUpdateGitHook hash fs).1, false,
        "Git pre-push hook is already up to date")) := by
  cases hdiff : isBinaryDifferent hash fs with
  | true =>
    rw [checkAndUpdate_of_different hash fs hdiff]
    refine ⟨rfl, ?_⟩
    rw [checkAndUpdate_of_same hash (updateGitHook fs)
      (isBinaryDifferent_update hash fs)]
  | false =>
    rw [checkAndUpdate_of_same hash fs hdiff]
    have hb : fs.hook = some fs.binary := by
      cases hh : fs.hook with
      | none => rw [isBinaryDifferent, hh] at hdiff; cases hdiff
      | some b =>
        rw [isBinaryDifferent, hh] at hdiff
        dsimp only at hdiff
        have heq : hash b = hash fs.binary := (bne_eq_false_iff_eq.mp hdiff).symm
        rw [hsep b hh heq]
    refine ⟨hb, ?_⟩
    rw [checkAndUpdate_of_same hash fs hdiff]

/-- Witness for C9 with the identity hash, a one-byte binary, and no
previously installed hook. -/
theorem install_twice_idempotent_witness :
    ((checkAndUpdateGitHook (fun l => l) { binary := ['X'], hook := none }).1.hook =
      some ['X']) ∧
    (checkAndUpdateGitHook (fun l => l)
        (checkAndUpdateGitHook (fun l => l) { binary := ['X'], hook := none }).1 =
      ((checkAndUpdateGitHook (fun l => l) { binary := ['X'], hook := none }).1, false,
        "Git pre-push hook is already up to date")) :=
  install_twice_idempotent (fun l => l) { binary := ['X'], hook := none }
    (by intro b hb; cases hb)

theorem parseGitRef_isDelete (line : List Char) (r : GitRef)
    (h : parseGitRef line = Except.ok r) : r.isDelete = (r.localSHA == zeroSHA) := by
  rw [parseGitRef] at h
  split at h
  · injection h with h
    subst h
    rfl
  · cases h

theorem readGitRefs_isDelete (lines : List (List Char)) (refs : List GitRef)
    (h : readGitRefs lines = Except.ok refs) :
    ∀ r ∈ refs, r.isDelete = (r.localSHA == zeroSHA) := by
  induction lines generalizing refs with
  | nil =>
    rw [readGitRefs] at h
    injection h with h
    subst h
    intro r hr
    cases hr
  | cons l rest ih =>
    rw [readGitRefs] at h
    split at h
    · exact ih refs h
    · split at h
      · cases h
      next r0 hp =>
        split at h
        · cases h
        next rs hrs =>
          injection h with h
          subst h
          intro r hr
          cases hr with
          | head => exact parseGitRef_isDelete l r0 hp
          | tail _ hmem => exact ih rs hrs r hmem

theorem parseGitPushInfo_isDelete (args : List (List Char)) (refs : List GitRef)
    (info : GitPushInfo) (h : parseGitPushInfo args refs = Except.ok info) :
    info.isDelete = refs.any (·.isDelete) ∧ info.refs = refs ∧
    info.tags = refs.filterMap (fun r =>
      if r.isTag then some (trimPrefixL r.localRef refsTags) else none) := by
  cases args with
  | nil => simp [parseGitPushInfo] at h
  | cons a rest =>
    cases rest with
    | nil => simp [parseGitPushInfo] at h
    | cons b rest2 =>
      simp only [parseGitPushInfo] at h
      injection h with h
      subst h
      exact ⟨rfl, rfl, rfl⟩

/-- Claim C7: when any parsed stdin ref has the forty-zero local SHA,
`runGitHook` prints the delete message and returns nil (exit 0) without
validating any tag, loading the configuration, or running the stage. -/
theorem delete_push_skips_all_checks (args lines : List (List Char))
    (cb ct : Except Unit (List Char)) (so : Option (List Char))
    (refs : List GitRef) (info : GitPushInfo)
    (h1 : readGitRefs lines = Except.ok refs)
    (h2 : refs ≠ [])
    (h3 : parseGitPushInfo args refs = Except.ok info)
    (h4 : ∃ r ∈ refs, r.localSHA = zeroSHA) :
    runGitHook args lines cb ct so =
      { events := [HookEvent.deleteMsg], hookError := none } := by
  have hdel : info.isDelete = true := by
    rw [(parseGitPushInfo_isDelete args refs info h3).1, List.any_eq_true]
    obtain ⟨r, hr, hsha⟩ := h4
    refine ⟨r, hr, ?_⟩
    rw [readGitRefs_isDelete lines refs h1 r hr, hsha]
    exact beq_self_eq_true zeroSHA
  have hne : refs.isEmpty = false := by
    cases refs with
    | nil => exact absurd rfl h2
    | cons a l => rfl
  simp only [runGitHook, h1, hne, h3, hdel]
  rfl

/-- Witness for C7: pushing a single branch deletion makes the hook
report the delete and do nothing else. -/
theorem delete_push_skips_all_checks_witness :
    runGitHook hookArgs [deleteLine] (Except.error ()) (Except.error ()) none =
      { events := [HookEvent.deleteMsg], hookError := none } :=
  delete_push_skips_all_checks hookArgs [deleteLine] (Except.error ()) (Except.error ())
    none [deleteRef] deleteInfo (by decide) (by decide) (by decide)
    ⟨deleteRef, by decide, by decide⟩

theorem dropWhile_ne_nil_of_exists {α : Type} (p : α → Bool) (l : List α)
    (h : ∃ x ∈ l, p x = false) : l.dropWhile p ≠ [] := by
  induction l with
  | nil =>
    obtain ⟨x, hx, _⟩ := h
    cases hx
  | cons a rest ih =>
    rw [List.dropWhile_cons]
    split
    next hpa =>
      refine ih ?_
      obtain ⟨x, hx, hpx⟩ := h
      cases hx with
      | head => rw [hpa] at hpx; cases hpx
      | tail _ hmem => exact ⟨x, hmem, hpx⟩
    next => simp

/-- Claim C8: `ValidateVersion` accepts exactly the non-empty strings
that begin with `v` and contain a decimal digit, and a push containing an
invalid tag (with no delete ref) makes `runGitHook` return an error —
exit code 1 — without loading the configuration or running any stage. -/
theorem invalid_tag_aborts_before_stage :
    (∀ v : List Char, isOkE (ValidateVersion v) =
      (!v.isEmpty && hasPrefixL v ['v'] &&
        v.any (fun r => decide ('0' ≤ r) && decide (r ≤ '9')))) ∧
    (∀ args lines cb ct so refs info,
      readGitRefs lines = Except.ok refs → refs ≠ [] →
      parseGitPushInfo args refs = Except.ok info →
      info.isDelete = false →
      (∃ t ∈ info.tags, isOkE (ValidateVersion t) = false) →
      ((runGitHook args lines cb ct so).hookError.isSome = true ∧
        HookEvent.ranStage ∉ (runGitHook args lines cb ct so).events ∧
        HookEvent.loadedConfig ∉ (runGitHook args lines cb ct so).events)) := by
  constructor
  · intro v
    by_cases h1 : v.isEmpty
    · simp [ValidateVersion, isOkE, h1]
    · by_cases h2 : hasPrefixL v ['v']
      · by_cases h3 : v.any (fun r => decide ('0' ≤ r) && decide (r ≤ '9'))
        · simp [ValidateVersion, isOkE, h1, h2, h3]
        · simp [ValidateVersion, isOkE, h1, h2, h3]
      · simp [ValidateVersion, isOkE, h1, h2]
  · intro args lines cb ct so refs info h1 h2 h3 hdel hbad
    have hne : refs.isEmpty = false := by
      cases refs with
      | nil => exact absurd rfl h2
      | cons a l => rfl
    cases hdw : info.tags.dropWhile (fun t => isOkE (ValidateVersion t)) with
    | nil =>
      exfalso
      exact dropWhile_ne_nil_of_exists _ info.tags hbad hdw
    | cons bad rest =>
      refine ⟨?_, ?_, ?_⟩ <;>
        simp [runGitHook, h1, hne, h3, hdel, hdw, List.mem_map]

/-- Witness for C8: pushing the tag `1.0.0` (no `v` prefix) aborts the
hook before any stage work. -/
theorem invalid_tag_aborts_before_stage_witness :
    ((runGitHook hookArgs [badTagLine] (Except.error ()) (Except.error ())
        none).hookError.isSome = true ∧
      HookEvent.ranStage ∉ (runGitHook hookArgs [badTagLine] (Except.error ())
        (Except.error ()) none).events ∧
      HookEvent.loadedConfig ∉ (runGitHook hookArgs [badTagLine] (Except.error ())
        (Except.error ()) none).events) :=
  invalid_tag_aborts_before_stage.2 hookArgs [badTagLine] (Except.error ())
    (Except.error ()) none [badTagRef] badTagInfo (by decide) (by decide) (by decide)
    (by decide) ⟨"1.0.0".toList, by decide, by decide⟩

/-- Counterexample to C1: a stage whose only step fails produces an
ERROR result, yet `RunStage` returns nil — `executeDAGWithStreaming`
always returns a nil error — so the hook process exits 0, not 1. -/
theorem runStage_exitCode_zero_on_error_cex :
    RunStage cfgSingleError (Except.error ()) runnerAFails "pre-push" =
      Except.ok ([errResultA], false) ∧
    hookExitCode (RunStage cfgSingleError (Except.error ()) runnerAFails "pre-push") =
      0 ∧
    hasErrors [errResultA] = true := by
  refine ⟨by decide, by decide, by decide⟩

/-- Claim C1 as amended: the overall stage outcome is the boolean
`success`, false exactly when some Result is ERROR (there is no
aggregate WARN level), and whenever the stage executes — even with ERROR
results — `RunStage` returns nil, so the process exit code is 0; exit
code 1 arises only from a missing stage or a DAG build failure. -/
theorem runStage_success_iff_no_error_and_exit_zero (cfg : Config)
    (detected : Except Unit String) (runner : Action → Result) (stage : String)
    (results : List Result) (success : Bool)
    (h : RunStage cfg detected runner stage = Except.ok (results, success)) :
    (success = !hasErrors results) ∧
    (success = false ↔ ∃ r ∈ results, r.status = Status.error) ∧
    hookExitCode (RunStage cfg detected runner stage) = 0 := by
  have hexit : hookExitCode (RunStage cfg detected runner stage) = 0 := by
    rw [h]
    rfl
  rw [RunStage] at h
  split at h
  next => cases h
  next steps hsteps =>
    split at h
    next => cases h
    next dag hdag =>
      injection h with h
      rw [Prod.mk.injEq] at h
      obtain ⟨hres, hsucc⟩ := h
      subst hres
      refine ⟨hsucc.symm, ?_, hexit⟩
      rw [← hsucc]
      simp [hasErrors, List.any_eq_true]

/-- Witness for C1's amended claim on the failing single-step stage. -/
theorem runStage_success_iff_no_error_and_exit_zero_witness :
    (false = !hasErrors [errResultA]) ∧
    ((false = false) ↔ ∃ r ∈ [errResultA], r.status = Status.error) ∧
    hookExitCode (RunStage cfgSingleError (Except.error ()) runnerAFails "pre-push") =
      0 :=
  runStage_success_iff_no_error_and_exit_zero cfgSingleError (Except.error ())
    runnerAFails "pre-push" [errResultA] false (by decide)

/-- Counterexample to C2: a step whose `only` set does not contain the
current version kind completes with status OK (message
`skipped (condition not met)`), not with status SKIPPED. -/
theorem conditionSkip_status_ok_cex :
    RunStage cfgOnlyGate detectedRC runnerAllOk "pre-push" =
      Except.ok ([condSkipResultA], true) ∧
    condSkipResultA.status ≠ Status.skipped := by
  refine ⟨by decide, by decide⟩

/-- Counterexample to C3: step `a` declares `on_error: warn`, fails with
ERROR, and its dependent `b` is nevertheless SKIPPED — the streaming
executor marks a node failed on every ERROR without consulting
`on_error`. -/
theorem onError_warn_dependent_skipped_cex :
    RunStage cfgWarnChain (Except.error ()) runnerAFails "pre-push" =
      Except.ok ([errResultA, depSkipResultB], false) ∧
    stepWarnA.onError = "warn" ∧
    (runnerAFails actBTrue).status = Status.ok := by
  refine ⟨by decide, by decide, by decide⟩

theorem find?_append_some {α : Type} (p : α → Bool) (l1 l2 : List α) (x : α)
    (h : l1.find? p = some x) : (l1 ++ l2).find? p = some x := by
  induction l1 with
  | nil => simp [List.find?] at h
  | cons a t ih =>
    rw [List.cons_append]
    cases hpa : p a with
    | true =>
      rw [List.find?_cons_of_pos _ hpa] at h ⊢
      exact h
    | false =>
      rw [List.find?_cons_of_neg _ (by simp [hpa])] at h ⊢
      exact ih h

theorem find?_append_none {α : Type} (p : α → Bool) (l1 l2 : List α)
    (h : l1.find? p = none) : (l1 ++ l2).find? p = l2.find? p := by
  induction l1 with
  | nil => simp
  | cons a t ih =>
    rw [List.cons_append]
    cases hpa : p a with
    | true => rw [List.find?_cons_of_pos _ hpa] at h; cases h
    | false =>
      rw [List.find?_cons_of_neg _ (by simp [hpa])] at h ⊢
      exact ih h

theorem statusOf_append_left (rs more : List Result) (n : String)
    (h : (statusOf rs n).isSome) : statusOf (rs ++ more) n = statusOf rs n := by
  rw [statusOf] at h ⊢
  rw [statusOf]
  cases hf : rs.find? (fun x => x.name == n) with
  | none => rw [hf] at h; simp at h
  | some x => simp only [find?_append_some _ _ _ _ hf, hf]

theorem statusOf_append_right (rs more : List Result) (n : String)
    (h : statusOf rs n = none) : statusOf (rs ++ more) n = statusOf more n := by
  rw [statusOf] at h ⊢
  rw [statusOf]
  cases hf : rs.find? (fun x => x.name == n) with
  | none => rw [find?_append_none _ _ _ hf]
  | some x => rw [hf] at h; simp at h

theorem statusOf_cons_ne (r : Result) (rs : List Result) (n : String)
    (h : ¬ r.name = n) : statusOf (r :: rs) n = statusOf rs n := by
  rw [statusOf, List.find?_cons_of_neg _ (by simpa using h), statusOf]

theorem statusOf_isSome_iff_mem_names (rs : List Result) (n : String) :
    (statusOf rs n).isSome ↔ n ∈ rs.map (·.name) := by
  induction rs with
  | nil => simp [statusOf]
  | cons r t ih =>
    by_cases hr : r.name = n
    · have hs : statusOf (r :: t) n = some r.status := by
        rw [statusOf, List.find?_cons_of_pos _ (by simpa using hr)]
        rfl
      simp [hs, hr]
    · rw [statusOf_cons_ne r t n hr]
      simp only [List.map_cons, List.mem_cons]
      rw [ih]
      constructor
      · intro hm
        exact Or.inr hm
      · rintro (heq | hm)
        · exact absurd heq.symm hr
        · exact hm

theorem find?_name_eq_of_nodup (rs : List Result) (r : Result)
    (hnd : (rs.map (·.name)).Nodup) (h : r ∈ rs) :
    rs.find? (fun x => x.name == r.name) = some r := by
  induction rs with
  | nil => cases h
  | cons a t ih =>
    rw [List.map_cons, List.nodup_cons] at hnd
    cases h with
    | head => rw [List.find?_cons_of_pos _ (by simp)]
    | tail _ hmem =>
      have hne : ¬ a.name = r.name := by
        intro heq
        exact hnd.1 (heq ▸ List.mem_map_of_mem (·.name) hmem)
      rw [List.find?_cons_of_neg _ (by simpa using hne)]
      exact ih hnd.2 hmem

theorem any_congr_mem {α : Type} (l : List α) (p q : α → Bool)
    (h : ∀ x ∈ l, p x = q x) : l.any p = l.any q := by
  induction l with
  | nil => rfl
  | cons a t ih =>
    simp only [List.any_cons]
    rw [h a (List.mem_cons_self a t), ih (fun x hx => h x (List.mem_cons_of_mem a hx))]

theorem expectedResult_append (detected : Except Unit String)
    (runner : Action → Result) (rs more : List Result) (name : String)
    (node : DAGNode) (h : ∀ d ∈ node.dependencies, (statusOf rs d).isSome) :
    expectedResult detected runner (rs ++ more) name node =
      expectedResult detected runner rs name node := by
  rw [expectedResult, expectedResult]
  have hany : (node.dependencies.any fun d =>
      statusOf (rs ++ more) d == some Status.error) =
      (node.dependencies.any fun d => statusOf rs d == some Status.error) := by
    refine any_congr_mem _ _ _ ?_
    intro d hd
    rw [statusOf_append_left rs more d (h d hd)]
  rw [hany]

theorem contains_iff_mem_str (l : List String) (a : String) :
    l.contains a = true ↔ a ∈ l := by
  induction l with
  | nil => simp
  | cons b t ih =>
    rw [List.contains_cons]
    simp only [Bool.or_eq_true, List.mem_cons]
    rw [ih]
    constructor
    · rintro (h | h)
      · exact Or.inl (by simpa using h)
      · exact Or.inr h
    · rintro (h | h)
      · exact Or.inl (by simpa using h)
      · exact Or.inr h

theorem stepOutcome_name (detected : Except Unit String) (runner : Action → Result)
    (failed : List String) (p : String × DAGNode) :
    (stepOutcome detected runner failed p).name = p.1 := by
  rw [stepOutcome]
  split
  · rfl
  split
  · rfl
  · rfl

theorem mem_getReady (dag : List (String × DAGNode)) (completed : List String)
    (p : String × DAGNode) :
    p ∈ getReadyStepsLocked dag completed [] ↔
      (p ∈ dag ∧ p.1 ∉ completed ∧ ∀ d ∈ p.2.dependencies, d ∈ completed) := by
  rw [getReadyStepsLocked, List.mem_filter]
  simp only [Bool.and_eq_true, Bool.not_eq_true']
  constructor
  · rintro ⟨hmem, ⟨⟨hc, _⟩, hall⟩⟩
    refine ⟨hmem, ?_, ?_⟩
    · intro hmemc
      rw [(contains_iff_mem_str completed p.1).mpr hmemc] at hc
      cases hc
    · intro d hd
      rw [allDependenciesCompleted, List.all_eq_true] at hall
      exact (contains_iff_mem_str completed d).mp (hall d hd)
  · rintro ⟨hmem, hnc, hdeps⟩
    refine ⟨hmem, ⟨⟨?_, rfl⟩, ?_⟩⟩
    · cases hc : completed.contains p.1 with
      | false => rfl
      | true => exact absurd ((contains_iff_mem_str completed p.1).mp hc) hnc
    · rw [allDependenciesCompleted, List.all_eq_true]
      intro d hd
      exact (contains_iff_mem_str completed d).mpr (hdeps d hd)

theorem lookupNode_eq_of_mem (dag : List (String × DAGNode)) (n : String)
    (node : DAGNode) (hnd : (dag.map (·.1)).Nodup) (hmem : (n, node) ∈ dag) :
    lookupNode dag n = some node := by
  induction dag with
  | nil => cases hmem
  | cons p t ih =>
    rw [List.map_cons, List.nodup_cons] at hnd
    cases hmem with
    | head => rw [lookupNode]; simp
    | tail _ hmemt =>
      rw [lookupNode]
      have hne : ¬ p.1 = n := by
        intro heq
        exact hnd.1 (heq ▸ List.mem_map_of_mem (·.1) hmemt)
      simp only [show (p.1 == n) = false by simpa using hne]
      exact ih hnd.2 hmemt

theorem lookupNode_mem (dag : List (String × DAGNode)) (n : String)
    (node : DAGNode) (h : lookupNode dag n = some node) : (n, node) ∈ dag := by
  induction dag with
  | nil => cases h
  | cons p t ih =>
    rw [lookupNode] at h
    cases hp : (p.1 == n) with
    | true =>
      rw [hp] at h
      simp only [if_true] at h
      injection h with h
      have hpn : p.1 = n := by simpa using hp
      subst h
      have hpe : (n, p.2) = p := by rw [← hpn]
      rw [hpe]
      exact List.mem_cons_self p t
    | false =>
      rw [hp] at h
      simp only [Bool.false_eq_true, if_false] at h
      exact List.mem_cons_of_mem p (ih h)

theorem lookupNode_isSome_iff (dag : List (String × DAGNode)) (n : String) :
    (lookupNode dag n).isSome ↔ n ∈ dag.map (·.1) := by
  induction dag with
  | nil => simp [lookupNode]
  | cons p t ih =>
    rw [lookupNode]
    by_cases hp : p.1 = n
    · simp [hp]
    · have hb : (p.1 == n) = false := by simpa using hp
      rw [hb]
      simp only [Bool.false_eq_true, if_false, List.map_cons, List.mem_cons]
      rw [ih]
      constructor
      · intro hm
        exact Or.inr hm
      · rintro (heq | hm)
        · exact absurd heq.symm hp
        · exact hm

theorem map_congr_mem {α β : Type} (l : List α) (f g : α → β)
    (h : ∀ x ∈ l, f x = g x) : l.map f = l.map g := by
  induction l with
  | nil => rfl
  | cons a t ih =>
    simp only [List.map_cons]
    rw [h a (List.mem_cons_self a t), ih (fun x hx => h x (List.mem_cons_of_mem a hx))]

theorem statusOf_eq_some_iff (rs : List Result) (n : String) (s : Status)
    (hnd : (rs.map (·.name)).Nodup) :
    statusOf rs n = some s ↔ ∃ r ∈ rs, r.name = n ∧ r.status = s := by
  induction rs with
  | nil => simp [statusOf]
  | cons r t ih =>
    rw [List.map_cons, List.nodup_cons] at hnd
    by_cases hr : r.name = n
    · have hs : statusOf (r :: t) n = some r.status := by
        rw [statusOf, List.find?_cons_of_pos _ (by simpa using hr)]
        rfl
      rw [hs]
      constructor
      · intro he
        injection he with he
        exact ⟨r, List.mem_cons_self r t, hr, he⟩
      · rintro ⟨x, hx, hxn, hxs⟩
        cases hx with
        | head => rw [hxs]
        | tail _ hxt =>
          exfalso
          refine hnd.1 ?_
          rw [hr, ← hxn]
          exact List.mem_map_of_mem (·.name) hxt
    · rw [statusOf_cons_ne r t n hr, ih hnd.2]
      constructor
      · rintro ⟨x, hx, hxn, hxs⟩
        exact ⟨x, List.mem_cons_of_mem r hx, hxn, hxs⟩
      · rintro ⟨x, hx, hxn, hxs⟩
        cases hx with
        | head => exact absurd hxn hr
        | tail _ hxt => exact ⟨x, hxt, hxn, hxs⟩

theorem SchedInv_applyWave (detected : Except Unit String) (runner : Action → Result)
    (dag : List (String × DAGNode)) (st : SchedState)
    (hnd : (dag.map (·.1)).Nodup) (hinv : SchedInv detected runner dag st) :
    SchedInv detected runner dag
      (applyWave detected runner st (getReadyStepsLocked dag st.completed [])) := by
  obtain ⟨hI1, hI2, hI3, hI4⟩ := hinv
  have hflt : ∀ p ∈ getReadyStepsLocked dag st.completed [],
      p ∈ dag ∧ p.1 ∉ st.completed ∧ ∀ d ∈ p.2.dependencies, d ∈ st.completed :=
    fun p hp => (mem_getReady dag st.completed p).mp hp
  have hnames : (getReadyStepsLocked dag st.completed []).map
        (fun p => (stepOutcome detected runner st.failed p).name) =
      (getReadyStepsLocked dag st.completed []).map (·.1) :=
    map_congr_mem _ _ _ (fun p _ => stepOutcome_name detected runner st.failed p)
  have hreadyNodup : ((getReadyStepsLocked dag st.completed []).map (·.1)).Nodup :=
    ((List.filter_sublist dag).map (·.1)).nodup hnd
  have hrsNames : ((getReadyStepsLocked dag st.completed []).map
        (stepOutcome detected runner st.failed)).map (·.name) =
      (getReadyStepsLocked dag st.completed []).map (·.1) := by
    rw [List.map_map]
    exact hnames
  have hrsNodup : (((getReadyStepsLocked dag st.completed []).map
        (stepOutcome detected runner st.failed)).map (·.name)).Nodup := by
    rw [hrsNames]
    exact hreadyNodup
  have hnew_not_old : ∀ n, n ∈ ((getReadyStepsLocked dag st.completed []).map
        (stepOutcome detected runner st.failed)).map (·.name) → n ∉ st.completed := by
    intro n hn
    rw [hrsNames] at hn
    obtain ⟨p, hp, hpn⟩ := List.mem_map.mp hn
    exact hpn ▸ (hflt p hp).2.1
  have hold_completed : ∀ r ∈ st.results, r.name ∈ st.completed := by
    intro r hr
    refine (hI1 r.name).mpr ?_
    rw [statusOf_isSome_iff_mem_names]
    exact List.mem_map_of_mem (·.name) hr
  have houtcome : ∀ p ∈ getReadyStepsLocked dag st.completed [],
      stepOutcome detected runner st.failed p =
        expectedResult detected runner
          (st.results ++ (getReadyStepsLocked dag st.completed []).map
            (stepOutcome detected runner st.failed)) p.1 p.2 := by
    intro p hp
    have hdepsS : ∀ d ∈ p.2.dependencies, (statusOf st.results d).isSome := by
      intro d hd
      exact (hI1 d).mp ((hflt p hp).2.2 d hd)
    have hfail : hasFailedDependency p.2 st.failed =
        (p.2.dependencies.any fun d =>
          statusOf (st.results ++ (getReadyStepsLocked dag st.completed []).map
            (stepOutcome detected runner st.failed)) d == some Status.error) := by
      rw [hasFailedDependency]
      refine any_congr_mem _ _ _ ?_
      intro d hd
      rw [statusOf_append_left _ _ _ (hdepsS d hd)]
      cases hc : st.failed.contains d with
      | true =>
        have hmem : d ∈ st.failed := (contains_iff_mem_str _ _).mp hc
        rw [(hI3 d).mp hmem]
        simp
      | false =>
        have hnmem : d ∉ st.failed := by
          intro hmem
          rw [(contains_iff_mem_str st.failed d).mpr hmem] at hc
          cases hc
        cases hb : (statusOf st.results d == some Status.error) with
        | true => exact absurd ((hI3 d).mpr (eq_of_beq hb)) hnmem
        | false => rfl
    rw [stepOutcome, expectedResult, ← hfail]
  refine ⟨?_, ?_, ?_, ?_⟩
  · intro n
    simp only [applyWave, List.mem_append]
    constructor
    · rintro (hn | hn)
      · have := (hI1 n).mp hn
        rw [statusOf_append_left _ _ _ this]
        exact this
      · rw [statusOf_isSome_iff_mem_names, List.map_append, List.mem_append]
        exact Or.inr hn
    · intro hn
      rw [statusOf_isSome_iff_mem_names, List.map_append, List.mem_append] at hn
      cases hn with
      | inl hn =>
        exact Or.inl ((hI1 n).mpr ((statusOf_isSome_iff_mem_names _ _).mpr hn))
      | inr hn => exact Or.inr hn
  · simp only [applyWave, List.map_append]
    refine List.Nodup.append hI2 hrsNodup ?_
    intro n hn1 hn2
    exact hnew_not_old n hn2 ((hI1 n).mpr ((statusOf_isSome_iff_mem_names _ _).mpr hn1))
  · intro n
    simp only [applyWave, List.mem_append]
    have hndApp : ((st.results ++ (getReadyStepsLocked dag st.completed []).map
        (stepOutcome detected runner st.failed)).map (·.name)).Nodup := by
      rw [List.map_append]
      refine List.Nodup.append hI2 hrsNodup ?_
      intro m hm1 hm2
      exact hnew_not_old m hm2 ((hI1 m).mpr ((statusOf_isSome_iff_mem_names _ _).mpr hm1))
    rw [statusOf_eq_some_iff _ _ _ hndApp]
    constructor
    · rintro (hn | hn)
      · obtain ⟨r, hr, hrn, hrs⟩ := (statusOf_eq_some_iff _ _ _ hI2).mp ((hI3 n).mp hn)
        exact ⟨r, List.mem_append_left _ hr, hrn, hrs⟩
      · obtain ⟨r, hr, hpred, hrn⟩ : ∃ r, r ∈ (getReadyStepsLocked dag st.completed []).map
            (stepOutcome detected runner st.failed) ∧ (r.status == Status.error) = true ∧
            r.name = n := by
          obtain ⟨r, hr, hrn⟩ := List.mem_map.mp hn
          rw [List.mem_filter] at hr
          exact ⟨r, hr.1, hr.2, hrn⟩
        exact ⟨r, List.mem_append_right _ hr, hrn, eq_of_beq hpred⟩
    · rintro ⟨r, hr, hrn, hrs⟩
      rw [List.mem_append] at hr
      cases hr with
      | inl hr =>
        refine Or.inl ((hI3 n).mpr ?_)
        rw [statusOf_eq_some_iff _ _ _ hI2]
        exact ⟨r, hr, hrn, hrs⟩
      | inr hr =>
        refine Or.inr ?_
        rw [← hrn]
        refine List.mem_map_of_mem (fun x : Result => x.name) ?_
        rw [List.mem_filter]
        exact ⟨hr, by rw [hrs]; simp⟩
  · intro r hr
    simp only [applyWave] at hr ⊢
    rw [List.mem_append] at hr
    cases hr with
    | inl hrOld =>
      obtain ⟨node, hlk, hdepsS, hexp⟩ := hI4 r hrOld
      refine ⟨node, hlk, ?_, ?_⟩
      · intro d hd
        rw [statusOf_append_left _ _ _ (hdepsS d hd)]
        exact hdepsS d hd
      · rw [expectedResult_append _ _ _ _ _ _ hdepsS]
        exact hexp
    | inr hrNew =>
      obtain ⟨p, hp, hpr⟩ := List.mem_map.mp hrNew
      have hpdag := (hflt p hp).1
      have hdepsC := (hflt p hp).2.2
      have hrname : r.name = p.1 := by
        rw [← hpr]
        exact stepOutcome_name detected runner st.failed p
      have hlk : lookupNode dag r.name = some p.2 := by
        rw [hrname]
        exact lookupNode_eq_of_mem dag p.1 p.2 hnd (by
          have : (p.1, p.2) = p := rfl
          rw [this]
          exact hpdag)
      refine ⟨p.2, hlk, ?_, ?_⟩
      · intro d hd
        have hS : (statusOf st.results d).isSome := (hI1 d).mp (hdepsC d hd)
        rw [statusOf_append_left _ _ _ hS]
        exact hS
      · rw [hrname, ← hpr]
        exact houtcome p hp

theorem SchedInv_initial (detected : Except Unit String) (runner : Action → Result)
    (dag : List (String × DAGNode)) :
    SchedInv detected runner dag { completed := [], failed := [], results := [] } := by
  refine ⟨?_, ?_, ?_, ?_⟩
  · intro n
    simp [statusOf]
  · simp
  · intro n
    simp [statusOf]
  · intro r hr
    cases hr

theorem SchedInv_runWaves (detected : Except Unit String) (runner : Action → Result)
    (dag : List (String × DAGNode)) (hnd : (dag.map (·.1)).Nodup) (fuel : Nat)
    (st : SchedState) (hinv : SchedInv detected runner dag st) :
    SchedInv detected runner dag (runWaves detected runner dag fuel st) := by
  induction fuel generalizing st with
  | zero => exact hinv
  | succ fuel ih =>
    rw [runWaves]
    split
    · exact hinv
    · exact ih _ (SchedInv_applyWave detected runner dag st hnd hinv)

theorem executeDAG_sound (detected : Except Unit String) (runner : Action → Result)
    (dag : List (String × DAGNode)) (hnd : (dag.map (·.1)).Nodup) :
    ((executeDAGWithStreaming detected runner dag).map (·.name)).Nodup ∧
    (∀ r ∈ executeDAGWithStreaming detected runner dag,
      ∃ node, lookupNode dag r.name = some node ∧
        r = expectedResult detected runner
          (executeDAGWithStreaming detected runner dag) r.name node) := by
  have h := SchedInv_runWaves detected runner dag hnd (dag.length + 1)
    { completed := [], failed := [], results := [] }
    (SchedInv_initial detected runner dag)
  refine ⟨h.2.1, ?_⟩
  intro r hr
  obtain ⟨node, h1, _, h3⟩ := h.2.2.2 r hr
  exact ⟨node, h1, h3⟩

theorem ready_nonempty_of_pending (dag : List (String × DAGNode))
    (completed : List String) (ord : List String)
    (hclosed : ∀ p ∈ dag, ∀ d ∈ p.2.dependencies, (lookupNode dag d).isSome)
    (htopo : TopoOrdered dag ord)
    (hpend : ∃ p ∈ dag, p.1 ∉ completed) :
    getReadyStepsLocked dag completed [] ≠ [] := by
  haveI hdec : DecidablePred
      (fun i => ∃ p ∈ dag, p.1 ∉ completed ∧ ord.indexOf p.1 = i) :=
    fun i => by infer_instance
  have hex : ∃ i, ∃ p ∈ dag, p.1 ∉ completed ∧ ord.indexOf p.1 = i := by
    obtain ⟨p, hp, hnc⟩ := hpend
    exact ⟨ord.indexOf p.1, p, hp, hnc, rfl⟩
  obtain ⟨p0, hp0mem, hp0nc, hp0idx⟩ := Nat.find_spec hex
  have hready : p0 ∈ getReadyStepsLocked dag completed [] := by
    rw [mem_getReady]
    refine ⟨hp0mem, hp0nc, ?_⟩
    intro d hd
    by_contra hdnc
    obtain ⟨nd, hnd⟩ := Option.isSome_iff_exists.mp (hclosed p0 hp0mem d hd)
    have hdmem : (d, nd) ∈ dag := lookupNode_mem dag d nd hnd
    have hPd : ∃ p ∈ dag, p.1 ∉ completed ∧ ord.indexOf p.1 = ord.indexOf d :=
      ⟨(d, nd), hdmem, hdnc, rfl⟩
    have hle := Nat.find_min' hex hPd
    have hlt : ord.indexOf d < ord.indexOf p0.1 := htopo.2 p0 hp0mem d hd
    rw [hp0idx] at hlt
    omega
  intro hnil
  rw [hnil] at hready
  cases hready

theorem runWaves_completes (detected : Except Unit String) (runner : Action → Result)
    (dag : List (String × DAGNode)) (ord : List String)
    (hclosed : ∀ p ∈ dag, ∀ d ∈ p.2.dependencies, (lookupNode dag d).isSome)
    (htopo : TopoOrdered dag ord) :
    ∀ fuel (st : SchedState),
      ((dag.map (·.1)).toFinset \ st.completed.toFinset).card < fuel →
      ∀ p ∈ dag, p.1 ∈ (runWaves detected runner dag fuel st).completed := by
  intro fuel
  induction fuel with
  | zero => intro st hcard; omega
  | succ fuel ih =>
    intro st hcard p hp
    rw [runWaves]
    split
    next hempty =>
      by_contra hnc
      refine ready_nonempty_of_pending dag st.completed ord hclosed htopo
        ⟨p, hp, hnc⟩ ?_
      exact List.isEmpty_iff.mp hempty
    next hempty =>
      have hne : getReadyStepsLocked dag st.completed [] ≠ [] := by
        intro hnil
        rw [hnil] at hempty
        exact hempty rfl
      obtain ⟨p0, hp0⟩ := List.exists_mem_of_ne_nil _ hne
      have hp0' := (mem_getReady dag st.completed p0).mp hp0
      refine ih (applyWave detected runner st
        (getReadyStepsLocked dag st.completed [])) ?_ p hp
      have hsub : (dag.map (·.1)).toFinset \
          (applyWave detected runner st
            (getReadyStepsLocked dag st.completed [])).completed.toFinset ⊂
          (dag.map (·.1)).toFinset \ st.completed.toFinset := by
        rw [Finset.ssubset_iff_of_subset]
        · refine ⟨p0.1, ?_, ?_⟩
          · rw [Finset.mem_sdiff]
            constructor
            · rw [List.mem_toFinset]
              exact List.mem_map_of_mem (·.1) hp0'.1
            · rw [List.mem_toFinset]
              exact fun hc => hp0'.2.1 hc
          · rw [Finset.mem_sdiff]
            intro hc
            refine hc.2 ?_
            rw [List.mem_toFinset]
            simp only [applyWave, List.mem_append]
            refine Or.inr ?_
            have : ((getReadyStepsLocked dag st.completed []).map
                (stepOutcome detected runner st.failed)).map (·.name) =
                (getReadyStepsLocked dag st.completed []).map (·.1) := by
              rw [List.map_map]
              exact map_congr_mem _ _ _
                (fun q _ => stepOutcome_name detected runner st.failed q)
            rw [this]
            exact List.mem_map_of_mem (·.1) hp0
        · refine Finset.sdiff_subset_sdiff (le_refl _) ?_
          intro x hx
          rw [List.mem_toFinset] at hx ⊢
          simp only [applyWave, List.mem_append]
          exact Or.inl hx
      have := Finset.card_lt_card hsub
      omega

theorem executeDAG_complete (detected : Except Unit String) (runner : Action → Result)
    (dag : List (String × DAGNode)) (ord : List String)
    (hclosed : ∀ p ∈ dag, ∀ d ∈ p.2.dependencies, (lookupNode dag d).isSome)
    (htopo : TopoOrdered dag ord) (hnd : (dag.map (·.1)).Nodup) :
    ∀ p ∈ dag, p.1 ∈ (executeDAGWithStreaming detected runner dag).map (·.name) := by
  intro p hp
  have hinv := SchedInv_runWaves detected runner dag hnd (dag.length + 1)
    { completed := [], failed := [], results := [] }
    (SchedInv_initial detected runner dag)
  have hcomp := runWaves_completes detected runner dag ord hclosed htopo
    (dag.length + 1) { completed := [], failed := [], results := [] }
    (by
      simp only [List.toFinset_nil, Finset.sdiff_empty]
      calc (dag.map (·.1)).toFinset.card ≤ (dag.map (·.1)).length :=
            List.toFinset_card_le _
        _ = dag.length := List.length_map _ _
        _ < dag.length + 1 := Nat.lt_succ_self _)
    p hp
  rw [← statusOf_isSome_iff_mem_names]
  exact (hinv.1 p.1).mp hcomp

theorem buildDAG_parts (cfg : Config) (steps : List Step)
    (dag : List (String × DAGNode)) (h : buildDAG cfg steps = Except.ok dag) :
    buildDAGNodes cfg steps [] = Except.ok dag ∧ findMissingDep dag dag = none := by
  rw [buildDAG] at h
  split at h
  next => cases h
  next dag0 hbn =>
    split at h
    next => cases h
    next hmd =>
      split at h
      next => cases h
      next =>
        injection h with h
        subst h
        exact ⟨hbn, hmd⟩

theorem findMissingDep_none_aux (dag : List (String × DAGNode)) :
    ∀ l, findMissingDep dag l = none →
      ∀ p ∈ l, ∀ d ∈ p.2.dependencies, (lookupNode dag d).isSome := by
  intro l
  induction l with
  | nil =>
    intro _ p hp
    cases hp
  | cons q t ih =>
    intro h p hp
    rw [findMissingDep] at h
    split at h
    next => cases h
    next hfind =>
      cases hp with
      | head =>
        intro d hd
        have hnn := List.find?_eq_none.mp hfind d hd
        cases hs : lookupNode dag d with
        | none => exact absurd (by rw [hs]; rfl) hnn
        | some _ => rfl
      | tail _ hpt => exact ih h p hpt

theorem mem_insertNode_keys (dag : List (String × DAGNode)) (k : String)
    (v : DAGNode) (n : String) :
    n ∈ (insertNode dag k v).map (·.1) ↔ n = k ∨ n ∈ dag.map (·.1) := by
  induction dag with
  | nil => simp [insertNode]
  | cons q t ih =>
    rw [insertNode]
    by_cases hq : q.1 = k
    · rw [if_pos (by simpa using hq)]
      simp only [List.map_cons, List.mem_cons]
      rw [hq]
      constructor
      · rintro (he | hm)
        · exact Or.inl he
        · exact Or.inr (Or.inr hm)
      · rintro (he | he | hm)
        · exact Or.inl he
        · exact Or.inl (hq ▸ he)
        · exact Or.inr hm
    · rw [if_neg (by simpa using hq)]
      simp only [List.map_cons, List.mem_cons]
      rw [ih]
      constructor
      · rintro (he | he | hm)
        · exact Or.inr (Or.inl he)
        · exact Or.inl he
        · exact Or.inr (Or.inr hm)
      · rintro (he | he | hm)
        · exact Or.inr (Or.inl he)
        · exact Or.inl he
        · exact Or.inr (Or.inr hm)

theorem insertNode_keys_nodup (dag : List (String × DAGNode)) (k : String)
    (v : DAGNode) (hnd : (dag.map (·.1)).Nodup) :
    ((insertNode dag k v).map (·.1)).Nodup := by
  induction dag with
  | nil => simp [insertNode]
  | cons q t ih =>
    rw [List.map_cons, List.nodup_cons] at hnd
    rw [insertNode]
    by_cases hq : q.1 = k
    · rw [if_pos (by simpa using hq)]
      rw [List.map_cons, List.nodup_cons]
      exact ⟨hq ▸ hnd.1, hnd.2⟩
    · rw [if_neg (by simpa using hq)]
      rw [List.map_cons, List.nodup_cons]
      refine ⟨?_, ih hnd.2⟩
      rw [mem_insertNode_keys]
      rintro (he | hm)
      · exact hq he
      · exact hnd.1 hm

theorem buildDAGNodes_nodup (cfg : Config) :
    ∀ (steps : List Step) (dag0 dag : List (String × DAGNode)),
      (dag0.map (·.1)).Nodup → buildDAGNodes cfg steps dag0 = Except.ok dag →
      (dag.map (·.1)).Nodup := by
  intro steps
  induction steps with
  | nil =>
    intro dag0 dag hnd h
    rw [buildDAGNodes] at h
    injection h with h
    subst h
    exact hnd
  | cons stp rest ih =>
    intro dag0 dag hnd h
    rw [buildDAGNodes] at h
    split at h
    next => cases h
    next a ha =>
      exact ih _ dag (insertNode_keys_nodup dag0 stp.action _ hnd) h

theorem lookup_insertNode_self (dag : List (String × DAGNode)) (k : String)
    (v : DAGNode) : lookupNode (insertNode dag k v) k = some v := by
  induction dag with
  | nil => simp [insertNode, lookupNode]
  | cons q t ih =>
    rw [insertNode]
    by_cases hq : q.1 = k
    · rw [if_pos (by simpa using hq), lookupNode]
      simp
    · rw [if_neg (by simpa using hq), lookupNode]
      simp only [show (q.1 == k) = false by simpa using hq, Bool.false_eq_true, if_false]
      exact ih

theorem lookup_insertNode_ne (dag : List (String × DAGNode)) (k : String)
    (v : DAGNode) (n : String) (h : ¬ n = k) :
    lookupNode (insertNode dag k v) n = lookupNode dag n := by
  have h1 : (k == n) = false := by
    simp only [beq_eq_false_iff_ne, ne_eq]
    exact fun he => h he.symm
  induction dag with
  | nil =>
    rw [insertNode, lookupNode, lookupNode]
    simp only [h1, Bool.false_eq_true, if_false]
    rfl
  | cons q t ih =>
    rw [insertNode]
    by_cases hq : q.1 = k
    · have h2 : (q.1 == n) = false := by rw [hq]; exact h1
      rw [if_pos (by simpa using hq), lookupNode, lookupNode]
      simp only [h1, h2, Bool.false_eq_true, if_false]
    · rw [if_neg (by simpa using hq), lookupNode, lookupNode]
      cases hqn : (q.1 == n) with
      | true => rfl
      | false => exact ih

theorem buildDAGNodes_lookup (cfg : Config) :
    ∀ (steps : List Step) (dag0 dag : List (String × DAGNode)),
      buildDAGNodes cfg steps dag0 = Except.ok dag →
      ∀ n node, lookupNode dag n = some node →
        lastStepFor steps n = some node.step ∨
        (lastStepFor steps n = none ∧ lookupNode dag0 n = some node) := by
  intro steps
  induction steps with
  | nil =>
    intro dag0 dag h n node hlk
    rw [buildDAGNodes] at h
    injection h with h
    subst h
    exact Or.inr ⟨rfl, hlk⟩
  | cons stp rest ih =>
    intro dag0 dag h n node hlk
    rw [buildDAGNodes] at h
    split at h
    next => cases h
    next a ha =>
      rcases ih _ dag h n node hlk with hlast | ⟨hnone, hlk0⟩
      · left
        rw [lastStepFor, hlast]
      · by_cases hn : stp.action = n
        · left
          have hself : lookupNode (insertNode dag0 stp.action
              { step := stp, action := a, dependencies := stp.require }) n =
              some { step := stp, action := a, dependencies := stp.require } := by
            rw [← hn]
            exact lookup_insertNode_self dag0 stp.action _
          rw [hself] at hlk0
          injection hlk0 with hlk0
          rw [lastStepFor, hnone, ← hlk0]
          simp [hn]
        · right
          have hne := lookup_insertNode_ne dag0 stp.action
            { step := stp, action := a, dependencies := stp.require } n
            (fun he => hn he.symm)
          rw [hne] at hlk0
          refine ⟨?_, hlk0⟩
          rw [lastStepFor, hnone]
          simp [hn]

theorem buildDAGNodes_keys_mem (cfg : Config) :
    ∀ (steps : List Step) (dag0 dag : List (String × DAGNode)),
      buildDAGNodes cfg steps dag0 = Except.ok dag →
      ∀ n, n ∈ dag.map (·.1) ↔ (n ∈ steps.map (·.action) ∨ n ∈ dag0.map (·.1)) := by
  intro steps
  induction steps with
  | nil =>
    intro dag0 dag h n
    rw [buildDAGNodes] at h
    injection h with h
    subst h
    simp
  | cons stp rest ih =>
    intro dag0 dag h n
    rw [buildDAGNodes] at h
    split at h
    next => cases h
    next a ha =>
      rw [ih _ dag h n, mem_insertNode_keys]
      simp only [List.map_cons, List.mem_cons]
      constructor
      · rintro (hm | he | hm)
        · exact Or.inl (Or.inr hm)
        · exact Or.inl (Or.inl he)
        · exact Or.inr hm
      · rintro (⟨he | hm⟩ | hm)
        · exact Or.inr (Or.inl he)
        · exact Or.inl hm
        · exact Or.inr (Or.inr hm)

theorem filter_name_eq (rs : List Result) (r : Result)
    (hnd : (rs.map (·.name)).Nodup) (hr : r ∈ rs) :
    rs.filter (fun x => x.name == r.name) = [r] := by
  induction rs with
  | nil => cases hr
  | cons a t ih =>
    rw [List.map_cons, List.nodup_cons] at hnd
    cases hr with
    | head =>
      rw [List.filter_cons_of_pos (by simp)]
      have hnil : t.filter (fun x => x.name == r.name) = [] := by
        rw [List.filter_eq_nil_iff]
        intro x hx hbeq
        exact hnd.1 (eq_of_beq hbeq ▸ List.mem_map_of_mem (·.name) hx)
      rw [hnil]
    | tail _ hmem =>
      have hne : ¬ a.name = r.name := by
        intro heq
        exact hnd.1 (heq ▸ List.mem_map_of_mem (·.name) hmem)
      rw [List.filter_cons_of_neg (by simpa using hne)]
      exact ih hnd.2 hmem

/-- Claim C2 as amended: a scheduled step whose `if`/`only` gate is unmet
(and none of whose dependencies failed) gets exactly one Result, with
status OK — not SKIPPED — and the message `skipped (condition not met)`. -/
theorem conditionSkip_exactly_one_ok_result (cfg : Config) (steps : List Step)
    (dag : List (String × DAGNode)) (detected : Except Unit String)
    (runner : Action → Result) (ord : List String) (name : String) (node : DAGNode)
    (hdag : buildDAG cfg steps = Except.ok dag)
    (htopo : TopoOrdered dag ord)
    (hnode : lookupNode dag name = some node)
    (hgate : shouldExecuteStep detected node = false)
    (hnofail : ∀ d ∈ node.dependencies,
      ¬ statusOf (executeDAGWithStreaming detected runner dag) d =
        some Status.error) :
    (executeDAGWithStreaming detected runner dag).filter (fun r => r.name == name) =
      [condSkipResult name] := by
  obtain ⟨hbn, hmd⟩ := buildDAG_parts cfg steps dag hdag
  have hnd : (dag.map (·.1)).Nodup := buildDAGNodes_nodup cfg steps [] dag (by simp) hbn
  have hclosed := findMissingDep_none_aux dag dag hmd
  have hmem : (name, node) ∈ dag := lookupNode_mem dag name node hnode
  have hcompl := executeDAG_complete detected runner dag ord hclosed htopo hnd
    (name, node) hmem
  obtain ⟨r, hrmem, hrname⟩ := List.mem_map.mp hcompl
  obtain ⟨hresNodup, hsound⟩ := executeDAG_sound detected runner dag hnd
  obtain ⟨node2, hlk2, hexp⟩ := hsound r hrmem
  rw [hrname] at hlk2
  rw [hnode] at hlk2
  injection hlk2 with hlk2
  subst hlk2
  have hany : (node.dependencies.any fun d =>
      statusOf (executeDAGWithStreaming detected runner dag) d ==
        some Status.error) = false := by
    rw [List.any_eq_false]
    intro d hd hb
    exact hnofail d hd (eq_of_beq hb)
  have hrval : r = condSkipResult name := by
    rw [expectedResult, hany] at hexp
    simp only [Bool.false_eq_true, if_false, hgate, Bool.not_false, if_true] at hexp
    rw [condSkipResult, hexp, hrname]
  have hfil := filter_name_eq (executeDAGWithStreaming detected runner dag) r
    hresNodup hrmem
  rw [hrname] at hfil
  rw [hfil, hrval]

/-- Witness for C2's amended claim: the `only: [release]` step under a
prerelease version gets the single OK condition-skip result. -/
theorem conditionSkip_exactly_one_ok_result_witness :
    (executeDAGWithStreaming detectedRC runnerAllOk dagOnlyGate).filter
        (fun r => r.name == "a") = [condSkipResultA] :=
  conditionSkip_exactly_one_ok_result cfgOnlyGate [stepOnlyRelease] dagOnlyGate
    detectedRC runnerAllOk ["a"] "a"
    { step := stepOnlyRelease, action := actTrue, dependencies := [] }
    (by decide) (by decide) (by decide) (by decide) (by decide)

/-- Claim C3 as amended: the scheduler marks a node failed exactly when
its Result status is ERROR, regardless of `on_error` — so a dependent of
an ERROR step is SKIPPED even when that step declares `on_error: warn` —
while WARN (and any non-ERROR) dependency statuses never prevent a
dependent from executing. -/
theorem failed_propagation_ignores_onError (cfg : Config) (steps : List Step)
    (dag : List (String × DAGNode)) (detected : Except Unit String)
    (runner : Action → Result)
    (hdag : buildDAG cfg steps = Except.ok dag) :
    ∀ r ∈ executeDAGWithStreaming detected runner dag,
      ∃ node, lookupNode dag r.name = some node ∧
        ((∃ d ∈ node.dependencies,
            statusOf (executeDAGWithStreaming detected runner dag) d =
              some Status.error) →
          r = depSkipResult r.name) ∧
        ((∀ d ∈ node.dependencies,
            ¬ statusOf (executeDAGWithStreaming detected runner dag) d =
              some Status.error) →
          shouldExecuteStep detected node = true →
          r = { runner node.action with name := r.name }) := by
  obtain ⟨hbn, _⟩ := buildDAG_parts cfg steps dag hdag
  have hnd : (dag.map (·.1)).Nodup := buildDAGNodes_nodup cfg steps [] dag (by simp) hbn
  intro r hr
  obtain ⟨_, hsound⟩ := executeDAG_sound detected runner dag hnd
  obtain ⟨node, hlk, hexp⟩ := hsound r hr
  refine ⟨node, hlk, ?_, ?_⟩
  · rintro ⟨d, hd, herr⟩
    have hany : (node.dependencies.any fun x =>
        statusOf (executeDAGWithStreaming detected runner dag) x ==
          some Status.error) = true := by
      rw [List.any_eq_true]
      exact ⟨d, hd, by rw [herr]; simp⟩
    rw [expectedResult, hany] at hexp
    rw [depSkipResult]
    simpa using hexp
  · intro hnone hshould
    have hany : (node.dependencies.any fun x =>
        statusOf (executeDAGWithStreaming detected runner dag) x ==
          some Status.error) = false := by
      rw [List.any_eq_false]
      intro d hd hb
      exact hnone d hd (eq_of_beq hb)
    rw [expectedResult, hany] at hexp
    simp only [Bool.false_eq_true, if_false, hshould, Bool.not_true] at hexp
    exact hexp

/-- Witness for C3's amended claim: in the warn-chain stage, step `b`
(which requires the ERROR step `a` with `on_error: warn`) is the
dependency-skip result. -/
theorem failed_propagation_ignores_onError_witness :
    ∃ node, lookupNode dagWarnChain depSkipResultB.name = some node ∧
      ((∃ d ∈ node.dependencies,
          statusOf (executeDAGWithStreaming (Except.error ()) runnerAFails
            dagWarnChain) d = some Status.error) →
        depSkipResultB = depSkipResult depSkipResultB.name) ∧
      ((∀ d ∈ node.dependencies,
          ¬ statusOf (executeDAGWithStreaming (Except.error ()) runnerAFails
            dagWarnChain) d = some Status.error) →
        shouldExecuteStep (Except.error ()) node = true →
        depSkipResultB = { runnerAFails node.action with name := depSkipResultB.name }) :=
  failed_propagation_ignores_onError cfgWarnChain [stepWarnA, stepPlain "b" ["a"]]
    dagWarnChain (Except.error ()) runnerAFails (by decide) depSkipResultB (by decide)

/-- Claim C10: the execution graph is keyed by action name — keys are
exactly the distinct action names of the stage's steps, a duplicated
action name holds the later-declared step's node, and a run yields
uniquely named results drawn from those keys, hence at most one Result
per distinct action name rather than one per declared step. -/
theorem dag_keyed_by_action_name (cfg : Config) (steps : List Step)
    (dag : List (String × DAGNode)) (h : buildDAG cfg steps = Except.ok dag) :
    ((dag.map (·.1)).Nodup) ∧
    (∀ n, (lookupNode dag n).isSome ↔ n ∈ steps.map (·.action)) ∧
    (∀ n node, lookupNode dag n = some node → lastStepFor steps n = some node.step) ∧
    (∀ detected runner,
      ((executeDAGWithStreaming detected runner dag).map (·.name)).Nodup ∧
      ∀ r ∈ executeDAGWithStreaming detected runner dag,
        (lookupNode dag r.name).isSome) := by
  obtain ⟨hbn, _⟩ := buildDAG_parts cfg steps dag h
  have hnd : (dag.map (·.1)).Nodup := buildDAGNodes_nodup cfg steps [] dag (by simp) hbn
  refine ⟨hnd, ?_, ?_, ?_⟩
  · intro n
    rw [lookupNode_isSome_iff, buildDAGNodes_keys_mem cfg steps [] dag hbn n]
    simp
  · intro n node hlk
    rcases buildDAGNodes_lookup cfg steps [] dag hbn n node hlk with hlast | ⟨_, hlk0⟩
    · exact hlast
    · cases hlk0
  · intro detected runner
    obtain ⟨hresNodup, hsound⟩ := executeDAG_sound detected runner dag hnd
    refine ⟨hresNodup, ?_⟩
    intro r hr
    obtain ⟨node, hlk, _⟩ := hsound r hr
    rw [hlk]
    rfl

/-- Witness for C10 on the duplicate-action stage: two declared steps,
one key, the surviving node is the later step, and the run produces a
single uniquely-named result. -/
theorem dag_keyed_by_action_name_witness :
    (lastStepFor [stepPlain "x" [], stepDupSecond] "x" = some stepDupSecond) ∧
    (((executeDAGWithStreaming (Except.error ()) runnerAllOk dagDup).map
        (·.name)).Nodup) ∧
    (lastStepFor [stepPlain "x" [], stepDupSecond] "x" ≠ some (stepPlain "x" [])) := by
  refine ⟨?_, ?_, by decide⟩
  · exact (dag_keyed_by_action_name cfgDup [stepPlain "x" [], stepDupSecond] dagDup
      (by decide)).2.2.1 "x"
      { step := stepDupSecond, action := actX, dependencies := [] } (by decide)
  · exact ((dag_keyed_by_action_name cfgDup [stepPlain "x" [], stepDupSecond] dagDup
      (by decide)).2.2.2 (Except.error ()) runnerAllOk).1

/-- Counterexample to C4: with declaration order `a b c` and results
arriving in the order `b a c`, the status lines are emitted in the order
`a c b` — the completed-but-buffered `b` is only flushed by
`displayRemainingSteps` after the run, so the emitted sequence does not
equal the declaration sequence. -/
theorem emit_order_deviates_cex :
    streamEmitOrder ["a", "b", "c"] ["b", "a", "c"] = ["a", "c", "b"] ∧
    (["a", "c", "b"] : List String) ≠ ["a", "b", "c"] := by
  refine ⟨by decide, by decide⟩

theorem processArrivals_completed (steps : List String) :
    ∀ (arr c em : List String),
      (processArrivals steps arr c em).1 = arr.reverse ++ c := by
  intro arr
  induction arr with
  | nil =>
    intro c em
    rw [processArrivals]
    simp
  | cons a rest ih =>
    intro c em
    rw [processArrivals, ih]
    simp

theorem processArrivals_guard (steps : List String) :
    ∀ (arr c em : List String),
      (∀ e ∈ em, ∃ j, steps.findIdx? (fun s => s == e) = some j ∧
        ∀ s ∈ steps.take j, s ∈ c) →
      ∀ e ∈ (processArrivals steps arr c em).2,
        ∃ j, steps.findIdx? (fun s => s == e) = some j ∧
          ∀ s ∈ steps.take j, s ∈ (processArrivals steps arr c em).1 := by
  intro arr
  induction arr with
  | nil =>
    intro c em hem e he
    rw [processArrivals] at he ⊢
    exact hem e he
  | cons a rest ih =>
    intro c em hem e he
    rw [processArrivals] at he ⊢
    refine ih (a :: c) _ ?_ e he
    intro x hx
    rw [displayStepImmediately] at hx
    split at hx
    next hcan =>
      rw [List.mem_append] at hx
      cases hx with
      | inl hxm =>
        obtain ⟨j, hj, hs⟩ := hem x hxm
        exact ⟨j, hj, fun s hsm => List.mem_cons_of_mem a (hs s hsm)⟩
      | inr hxa =>
        have hxa2 : x = a := by simpa using hxa
        subst hxa2
        rw [canDisplayStepImmediately] at hcan
        split at hcan
        next => cases hcan
        next i hidx =>
          refine ⟨i, hidx, ?_⟩
          intro s hsm
          exact (contains_iff_mem_str _ _).mp (List.all_eq_true.mp hcan s hsm)
    next =>
      obtain ⟨j, hj, hs⟩ := hem x hx
      exact ⟨j, hj, fun s hsm => List.mem_cons_of_mem a (hs s hsm)⟩

theorem processArrivals_emitted (steps : List String) :
    ∀ (arr c em : List String),
      em.Nodup → (∀ e ∈ em, e ∈ c) → (∀ x ∈ arr, x ∉ c) → arr.Nodup →
      ((processArrivals steps arr c em).2.Nodup ∧
        ∀ e ∈ (processArrivals steps arr c em).2,
          e ∈ (processArrivals steps arr c em).1) := by
  intro arr
  induction arr with
  | nil =>
    intro c em h1 h2 _ _
    rw [processArrivals]
    exact ⟨h1, h2⟩
  | cons a rest ih =>
    intro c em h1 h2 h3 h4
    rw [processArrivals]
    rw [List.nodup_cons] at h4
    refine ih (a :: c) _ ?_ ?_ ?_ h4.2
    · rw [displayStepImmediately]
      split
      · refine List.Nodup.append h1 (List.nodup_singleton a) ?_
        intro x hx1 hx2
        have hxa : x = a := by simpa using hx2
        subst hxa
        exact h3 x (List.mem_cons_self x rest) (h2 x hx1)
      · exact h1
    · intro e he
      rw [displayStepImmediately] at he
      split at he
      · rw [List.mem_append] at he
        cases he with
        | inl hem => exact List.mem_cons_of_mem a (h2 e hem)
        | inr hea =>
          have : e = a := by simpa using hea
          rw [this]
          exact List.mem_cons_self a c
      · exact List.mem_cons_of_mem a (h2 e he)
    · intro x hx
      rw [List.mem_cons]
      rintro (heq | hmem)
      · exact h4.1 (heq ▸ hx)
      · exact h3 x (List.mem_cons_of_mem a hx) hmem

theorem displayRemainingSteps_mem (c : List String) :
    ∀ (steps em : List String) (x : String),
      x ∈ displayRemainingSteps steps c em ↔ x ∈ em ∨ (x ∈ steps ∧ x ∈ c) := by
  intro steps
  induction steps with
  | nil =>
    intro em x
    rw [displayRemainingSteps]
    simp [List.foldl]
  | cons s rest ih =>
    intro em x
    have hstep : displayRemainingSteps (s :: rest) c em =
        displayRemainingSteps rest c
          (if !em.contains s && c.contains s then em ++ [s] else em) := rfl
    rw [hstep, ih]
    by_cases hs : (!em.contains s && c.contains s) = true
    · rw [if_pos hs]
      rw [Bool.and_eq_true, Bool.not_eq_true'] at hs
      simp only [List.mem_append, List.mem_singleton, List.mem_cons]
      constructor
      · rintro ((hm | he | he0) | ⟨hr, hc⟩)
        · exact Or.inl hm
        · exact Or.inr ⟨Or.inl he, he ▸ (contains_iff_mem_str c s).mp hs.2⟩
        · cases he0
        · exact Or.inr ⟨Or.inr hr, hc⟩
      · rintro (hm | ⟨he | hr, hc⟩)
        · exact Or.inl (Or.inl hm)
        · exact Or.inl (Or.inr (Or.inl he))
        · exact Or.inr ⟨hr, hc⟩
    · rw [if_neg hs]
      rw [Bool.and_eq_true, Bool.not_eq_true'] at hs
      simp only [List.mem_cons]
      constructor
      · rintro (hm | ⟨hr, hc⟩)
        · exact Or.inl hm
        · exact Or.inr ⟨Or.inr hr, hc⟩
      · rintro (hm | ⟨he | hr, hc⟩)
        · exact Or.inl hm
        · refine Or.inl ?_
          cases hemc : em.contains s with
          | true => exact he ▸ (contains_iff_mem_str em s).mp hemc
          | false =>
            exfalso
            exact hs ⟨hemc, (contains_iff_mem_str c s).mpr (he ▸ hc)⟩
        · exact Or.inr ⟨hr, hc⟩

theorem displayRemainingSteps_nodup (c : List String) :
    ∀ (steps em : List String), em.Nodup → (displayRemainingSteps steps c em).Nodup := by
  intro steps
  induction steps with
  | nil =>
    intro em h
    exact h
  | cons s rest ih =>
    intro em h
    have hstep : displayRemainingSteps (s :: rest) c em =
        displayRemainingSteps rest c
          (if !em.contains s && c.contains s then em ++ [s] else em) := rfl
    rw [hstep]
    refine ih _ ?_
    by_cases hs : (!em.contains s && c.contains s) = true
    · rw [if_pos hs]
      rw [Bool.and_eq_true, Bool.not_eq_true'] at hs
      refine List.Nodup.append h (List.nodup_singleton s) ?_
      intro x hx1 hx2
      have hxs : x = s := by simpa using hx2
      subst hxs
      rw [(contains_iff_mem_str em x).mpr hx1] at hs
      cases hs.1
    · rw [if_neg hs]
      exact h

/-- Claim C4 as amended: each step's status line is emitted exactly once
— the full emitted sequence is a permutation of the declaration sequence
— and a line emitted while results are still arriving is emitted only
when every earlier-declared step is already completed; however, a step
whose guard fails at arrival time is flushed only after the run, so the
emitted order need not equal the declaration order. -/
theorem emit_perm_and_guard (steps arrivals : List String)
    (hndA : arrivals.Nodup) (hndS : steps.Nodup)
    (hmem : ∀ s, s ∈ arrivals ↔ s ∈ steps) :
    (streamEmitOrder steps arrivals).Perm steps ∧
    (∀ k e, e ∈ (processArrivals steps (arrivals.take k) [] []).2 →
      ∃ j, steps.findIdx? (fun s => s == e) = some j ∧
        ∀ s ∈ steps.take j, s ∈ (processArrivals steps (arrivals.take k) [] []).1) := by
  constructor
  · have hem := processArrivals_emitted steps arrivals [] []
      (by simp) (by intro e he; cases he) (by intro x _ hx; cases hx) hndA
    have hcomp := processArrivals_completed steps arrivals [] []
    rw [streamEmitOrder]
    refine (List.perm_ext_iff_of_nodup ?_ hndS).mpr ?_
    · exact displayRemainingSteps_nodup _ _ _ hem.1
    · intro x
      rw [displayRemainingSteps_mem]
      constructor
      · rintro (hm | ⟨hsx, _⟩)
        · have := hem.2 x hm
          rw [hcomp] at this
          rw [← hmem x]
          simpa using this
        · exact hsx
      · intro hx
        refine Or.inr ⟨hx, ?_⟩
        rw [hcomp]
        simpa using (hmem x).mpr hx
  · intro k e he
    exact processArrivals_guard steps (arrivals.take k) [] []
      (by intro x hx; cases hx) e he

/-- Witness for C4's amended claim at the out-of-order arrival `b a c`
against declaration order `a b c`. -/
theorem emit_perm_and_guard_witness :
    (streamEmitOrder ["a", "b", "c"] ["b", "a", "c"]).Perm ["a", "b", "c"] ∧
    (∀ k e, e ∈ (processArrivals ["a", "b", "c"]
        ((["b", "a", "c"] : List String).take k) [] []).2 →
      ∃ j, (["a", "b", "c"] : List String).findIdx? (fun s => s == e) = some j ∧
        ∀ s ∈ (["a", "b", "c"] : List String).take j,
          s ∈ (processArrivals ["a", "b", "c"]
            ((["b", "a", "c"] : List String).take k) [] []).1) :=
  emit_perm_and_guard ["a", "b", "c"] ["b", "a", "c"] (by decide) (by decide)
    (by
      intro s
      simp only [List.mem_cons, List.not_mem_nil, or_false]
      tauto)

end PrePush
